import Mathlib

/-!
Verification of the alntools BAM-to-equivalence-class conversion core.

This file gives a shallow embedding of the functions of
`src/alntools/bam_utils.py` and `src/alntools/bam_utils_multisample.py`
that the specification's claims are about, and proves (or refutes) each
claim against that embedding.

Modelling conventions:
* Python ordered dictionaries are association lists `List (String × β)`;
  assignment `d[k] = v` replaces the value at the first occurrence of `k`
  (keeping its position, as a Python dict does) or appends `(k, v)`.
* Python strings are Lean `String`s, but every string primitive used by
  the source (comparison, `find`, `rfind`, `split`, slicing) is defined
  here on the character list `String.data`, because the corresponding
  Lean library functions do not reduce in the kernel.
* Python `sorted` on duplicate-free string lists is modelled by insertion
  sort under the lexicographic character order; both return the unique
  sorted permutation, which is all the source relies on.
* `pysam` alignment streams are lists of alignment records; the end of
  the list is the `StopIteration` that ends the source's read loops.
* A raised-and-caught Python exception is an `Except`/`Option` error
  value; which handler catches it is modelled by where the error value
  is converted back into a normal result.
-/

namespace Alntools

/-! ## String primitives (Python semantics, on `String.data`) -/

/-- Lexicographic order on strings via their character lists, matching
Python string comparison on the code points that occur in BAM data. -/
def strle (a b : String) : Prop := a.data ≤ b.data

instance : DecidableRel strle := fun a b => inferInstanceAs (Decidable (a.data ≤ b.data))

instance : IsTrans String strle := ⟨fun _ _ _ h1 h2 => le_trans h1 h2⟩

instance : IsTotal String strle := ⟨fun a b => le_total a.data b.data⟩

instance : IsAntisymm String strle :=
  ⟨fun a b h1 h2 => by cases a; cases b; exact congrArg String.mk (le_antisymm h1 h2)⟩

/-- Python `sorted` on a list of strings (the source only sorts
duplicate-free lists, for which any sort yields the same result). -/
def pySort (l : List String) : List String := l.insertionSort strle

/-- Python `s.find(c)`: index of the first occurrence, `-1` if absent. -/
def pyFind (s : String) (c : Char) : Int :=
  let i := s.data.findIdx (· == c)
  if i < s.data.length then (i : Int) else -1

/-- Python `s.rfind(c)` as an option: index of the last occurrence
(`none` models the `-1` of a missing character). -/
def pyRFind (s : String) (c : Char) : Option Nat :=
  let i := s.data.reverse.findIdx (· == c)
  if i < s.data.length then some (s.data.length - 1 - i) else none

/-- Python `s.split(',')` (single-character separator). -/
def splitCommaAux : List Char → List (List Char)
  | [] => [[]]
  | c :: rest =>
    if c = ',' then [] :: splitCommaAux rest
    else
      match splitCommaAux rest with
      | [] => [[c]]
      | g :: gs => (c :: g) :: gs

/-- Python `s.split(",")` on strings. -/
def pySplitComma (s : String) : List String := (splitCommaAux s.data).map fun l => ⟨l⟩

/-- Python `s.split("|||")`: leftmost-first match of the three-character
separator, as used for barcode extraction from read names. -/
def splitBarsAux : List Char → List (List Char)
  | '|' :: '|' :: '|' :: rest => [] :: splitBarsAux rest
  | c :: rest =>
    match splitBarsAux rest with
    | [] => [[c]]
    | g :: gs => (c :: g) :: gs
  | [] => [[]]

/-- Python `s.split("|||")` on strings. -/
def pySplitBars (s : String) : List String := (splitBarsAux s.data).map fun l => ⟨l⟩

/-! ## Ordered dictionaries as association lists -/

/-- A Python (ordered) dict with string keys. -/
abbrev Dict (β : Type) := List (String × β)

/-- The keys of a dict, in insertion order. -/
def keys (d : Dict β) : List String := d.map Prod.fst

/-- Python `d[k]` as an option (first occurrence). -/
def getVal? (d : Dict β) (k : String) : Option β :=
  (d.find? fun p => p.1 == k).map Prod.snd

/-- Python `k in d`. -/
def hasKey (d : Dict β) (k : String) : Bool := (getVal? d k).isSome

/-- Count lookup defaulting to zero. -/
def getNat (d : Dict Nat) (k : String) : Nat := (getVal? d k).getD 0

/-- Python `d[k] = v`: replace in place at the first occurrence of `k`,
else append at the end (dict insertion order). -/
def setVal : Dict β → String → β → Dict β
  | [], k, v => [(k, v)]
  | p :: rest, k, v => if p.1 == k then (k, v) :: rest else p :: setVal rest k v

/-- The `try: d[k] += c  except KeyError: d[k] = c` pattern (also
`defaultdict(int)` increments). -/
def addCount : Dict Nat → String → Nat → Dict Nat
  | [], k, c => [(k, c)]
  | p :: rest, k, c => if p.1 == k then (p.1, p.2 + c) :: rest else p :: addCount rest k c

/-- Append a string to a list only if it is not already present
(the `if x not in l: l.append(x)` pattern, also a Python `set` in
insertion order). -/
def appendAbsent (l : List String) (s : String) : List String :=
  if s ∈ l then l else l ++ [s]

/-- The canonical equivalence-class key of a list of target ids, as the
spec describes it: the comma-join of the sorted duplicate-free list of
their decimal strings. -/
def canonKey (tids : List Int) : String :=
  String.intercalate "," (pySort ((tids.map toString).foldl appendAbsent []))

/-- A string has canonical EC-key form when it is the comma-join of a
nonempty, duplicate-free, lexicographically sorted list of decimal
target-id strings. -/
def isCanonicalKey (k : String) : Prop :=
  ∃ l : List String, l ≠ [] ∧ l.Nodup ∧ List.Sorted strle l ∧
    (∀ s ∈ l, ∃ z : Int, s = toString z) ∧ k = String.intercalate "," l

/-! ## Single-sample aggregator: `bam_utils.process_piece`

The worker streams the alignments of each chunk file (`mp.data` is the
list of chunks; each chunk's decoded alignment stream is a list of
alignment records).  `StopIteration` ends a chunk's read loop; any other
exception is caught by the outer handler (line 304), which logs it and
falls through to return whatever tables were built so far.  An
`Except PPState PPState` error value carries the tables at the moment
the exception was raised. -/

/-- The fields of a pysam alignment used by `process_piece`. -/
structure Alignment where
  is_unmapped : Bool
  tid : Int
  qname : String
deriving DecidableEq

/-- The local state of the `process_piece` loop (lines 152-187). -/
structure PPState where
  ec : Dict Nat
  ec_idx : Dict Nat
  haplotypes : List String
  target_idx_to_main_target : Dict String
  unique_tids : Dict Nat
  unique_reads : Dict Nat
  read_id : Option String
  target_ids : List String
  tid : Option String
  read_id_switch_counter : Nat
  same_read_target_counter : Nat
deriving DecidableEq

/-- pysam `sam_file.getrname(tid)`: the reference name for a target id,
`none` when the id is out of range (pysam raises there). -/
def getrname (references : List String) (tid : Int) : Option String :=
  if h : 0 ≤ tid ∧ tid.toNat < references.length then
    some (references.get ⟨tid.toNat, h.2⟩)
  else none

/-- Python `reference_sequence_name[:idx_underscore]` with
`idx_underscore = rfind('_')` (lines 227-228): when no underscore
exists, `rfind` returns `-1` and the slice drops the last character. -/
def pp_main_target (s : String) : String :=
  match pyRFind s '_' with
  | some i => ⟨s.data.take i⟩
  | none => ⟨s.data.take (s.data.length - 1)⟩

/-- Python `reference_sequence_name[idx_underscore+1:]` (line 246): when
no underscore exists the slice `[0:]` is the whole name. -/
def pp_haplotype (s : String) : String :=
  match pyRFind s '_' with
  | some i => ⟨s.data.drop (i + 1)⟩
  | none => s

/-- The body of the `while True` loop of `process_piece`
(lines 208-280), processing one alignment. -/
def ppStep (references : List String) (st : PPState) (a : Alignment) :
    Except PPState PPState :=
  if a.is_unmapped then .ok st
  else
    match getrname references a.tid with
    | none => .error st
    | some reference_sequence_name =>
      let tid := toString a.tid
      let main_target := pp_main_target reference_sequence_name
      let haplotype := pp_haplotype reference_sequence_name
      let read_id := st.read_id.getD a.qname
      let st := { st with
        unique_tids := addCount st.unique_tids tid 1,
        target_idx_to_main_target := setVal st.target_idx_to_main_target tid main_target,
        haplotypes := appendAbsent st.haplotypes haplotype,
        unique_reads := addCount st.unique_reads read_id 1,
        tid := some tid }
      if read_id ≠ a.qname then
        let ec_key := String.intercalate "," (pySort st.target_ids)
        .ok { st with
          ec := addCount st.ec ec_key 1,
          ec_idx := if hasKey st.ec ec_key then st.ec_idx
                    else setVal st.ec_idx ec_key st.ec_idx.length,
          read_id := some a.qname,
          target_ids := [tid],
          read_id_switch_counter := st.read_id_switch_counter + 1 }
      else if tid ∈ st.target_ids then
        .ok { st with
          read_id := some read_id,
          same_read_target_counter := st.same_read_target_counter + 1 }
      else
        .ok { st with
          read_id := some read_id,
          target_ids := st.target_ids ++ [tid] }

/-- The per-chunk flush after `StopIteration` (lines 289-300).  When no
valid alignment was ever seen, `tid` is still `None`; Python then
appends `None` to `target_ids` and `','.join` raises a `TypeError`,
which the outer handler catches with the EC table untouched. -/
def ppEndFlush (st : PPState) : Except PPState PPState :=
  match st.tid with
  | none => .error st
  | some t =>
    let st :=
      if t ∈ st.target_ids then
        { st with same_read_target_counter := st.same_read_target_counter + 1 }
      else
        { st with target_ids := st.target_ids ++ [t] }
    let ec_key := String.intercalate "," (pySort st.target_ids)
    .ok { st with
      ec := addCount st.ec ec_key 1,
      ec_idx := if hasKey st.ec ec_key then st.ec_idx
                else setVal st.ec_idx ec_key st.ec_idx.length }

/-- One iteration of the `for file_info_data in mp.data` loop
(lines 191-302): `read_id` is re-initialized per chunk (line 206), the
chunk's alignments are streamed, and the pending read is flushed.  All
other loop variables persist across chunks. -/
def ppChunk (references : List String) (st : PPState) (alns : List Alignment) :
    Except PPState PPState := do
  let st1 ← alns.foldlM (ppStep references) { st with read_id := none }
  ppEndFlush st1

/-- The single-sample worker result (`ConvertResults`). -/
structure PPResult where
  main_targets : Dict Nat
  ec : Dict Nat
  ec_idx : Dict Nat
  haplotypes : List String
  target_idx_to_main_target : Dict String
  unique_tids : Dict Nat
  unique_reads : Dict Nat
deriving DecidableEq

/-- Main-target table built from the header references when no target
file is given (lines 139-148): parse, deduplicate, sort alphabetically,
then assign dense indices. -/
def pp_main_targets (references : List String) : Dict Nat :=
  let tmp := (references.map pp_main_target).foldl appendAbsent []
  (pySort tmp).foldl (fun acc t => setVal acc t acc.length) []

/-- The worker `process_piece` (no target file), over the decoded
alignment streams of its chunks.  An exception anywhere inside the
`try` of line 190 is logged (line 304) and the partial tables are
returned; `haplotypes` is sorted on return (line 307). -/
def process_piece (references : List String) (chunks : List (List Alignment)) :
    PPResult :=
  let st0 : PPState := ⟨[], [], [], [], [], [], none, [], none, 0, 0⟩
  let final :=
    match chunks.foldlM (ppChunk references) st0 with
    | .ok st => st
    | .error st => st
  { main_targets := pp_main_targets references
    ec := final.ec
    ec_idx := final.ec_idx
    haplotypes := pySort final.haplotypes
    target_idx_to_main_target := final.target_idx_to_main_target
    unique_tids := final.unique_tids
    unique_reads := final.unique_reads }

/-! ## Multi-sample aggregator: `bam_utils_multisample.process_convert_bam`

One worker streams one whole BAM.  Only `StopIteration` is caught
(line 306); an `IndexError` from the barcode extraction would propagate
out of the worker, so the embedding returns `Except String _` with the
error value modelling the escaping exception. -/

/-- The fields of a pysam alignment used by `process_convert_bam`. -/
structure MsAlignment where
  is_unmapped : Bool
  is_paired : Bool
  is_read2 : Bool
  is_proper_pair : Bool
  reference_id : Int
  next_reference_id : Int
  next_reference_start : Int
  reference_start : Int
  query_name : String
deriving DecidableEq

/-- A nested `ec_key -> cell barcode -> count` table
(`defaultdict(lambda: defaultdict(int))`). -/
abbrev EcCrTable := List (String × Dict Nat)

/-- The local state of the `process_convert_bam` loop (lines 184-211). -/
structure MsState where
  ec : EcCrTable
  unique_reads : Dict Nat
  tid_ranges : Dict (Int × Int)
  query_name : Option String
  reference_ids : List String
  read_id_switch_counter : Nat
  same_read_target_counter : Nat
  valid_alignments : Nat
  all_alignments : Nat
deriving DecidableEq

/-- Truncation of a read name at the first space (lines 264-266 and
284-287): Python `find` returns `-1` when absent, and the guard is
`i > 0`, so a leading space does not truncate. -/
def truncAtSpace (s : String) : String :=
  let i := pyFind s ' '
  if i > 0 then ⟨s.data.take i.toNat⟩ else s

/-- Nested table update `ec[ec_key][bam_tag_CR] += 1` on a
`defaultdict` of `defaultdict(int)` (line 291): a missing outer key is
created at the end holding the single inner count. -/
def ecAddMs : EcCrTable → String → String → Nat → EcCrTable
  | [], ek, ck, c => [(ek, [(ck, c)])]
  | p :: rest, ek, ck, c =>
    if p.1 == ek then (p.1, addCount p.2 ck c) :: rest else p :: ecAddMs rest ek ck c

/-- The body of the `while True` loop of `process_convert_bam`
(lines 218-304), processing one alignment. -/
def msStep (track_ranges : Bool) (st : MsState) (a : MsAlignment) :
    Except String MsState :=
  let st := { st with all_alignments := st.all_alignments + 1 }
  if a.is_unmapped then .ok st
  else if a.is_paired &&
      (a.is_read2 || !a.is_proper_pair || a.reference_id != a.next_reference_id ||
        decide (a.next_reference_start < 0)) then .ok st
  else
    let st : MsState := { st with valid_alignments := st.valid_alignments + 1 }
    let reference_id := toString a.reference_id
    let st : MsState :=
      if track_ranges then
        let mm := (getVal? st.tid_ranges reference_id).getD (100000000000, -1)
        let nx : Int × Int := (min mm.1 a.reference_start, max mm.2 a.reference_start)
        { st with tid_ranges := setVal st.tid_ranges reference_id nx }
      else st
    let query_name := st.query_name.getD (truncAtSpace a.query_name)
    let st : MsState := { st with unique_reads := addCount st.unique_reads query_name 1 }
    match (pySplitBars query_name).get? 2 with
    | none => .error "IndexError"
    | some bam_tag_CR =>
      let alignment_query_name := truncAtSpace a.query_name
      if query_name ≠ alignment_query_name then
        let ec_key := String.intercalate "," (pySort st.reference_ids)
        .ok { st with
          ec := ecAddMs st.ec ec_key bam_tag_CR 1,
          query_name := some a.query_name,
          reference_ids := [reference_id],
          read_id_switch_counter := st.read_id_switch_counter + 1 }
      else if reference_id ∈ st.reference_ids then
        .ok { st with
          query_name := some query_name,
          same_read_target_counter := st.same_read_target_counter + 1 }
      else
        .ok { st with
          query_name := some query_name,
          reference_ids := st.reference_ids ++ [reference_id] }

/-- The multi-sample worker result (`ConvertResults` of the
multi-sample module). -/
structure MsResult where
  ec : EcCrTable
  unique_reads : Dict Nat
  tid_ranges : Dict (Int × Int)
  valid_alignments : Nat
  all_alignments : Nat
deriving DecidableEq

/-- The worker `process_convert_bam` over the decoded alignment stream.
After `StopIteration` the handler only logs (lines 306-309): the
pending read is not flushed before the result is assembled
(lines 315-322). -/
def process_convert_bam (track_ranges : Bool) (alns : List MsAlignment) :
    Except String MsResult :=
  let st0 : MsState := ⟨[], [], [], none, [], 0, 0, 0, 0⟩
  (alns.foldlM (msStep track_ranges) st0).map fun st =>
    ⟨st.ec, st.unique_reads, st.tid_ranges, st.valid_alignments, st.all_alignments⟩

/-- Header reference parsing of multi-sample `convert` (lines 407-419):
only a strictly positive `rfind('_')` splits the name; otherwise the
whole name is the target and the haplotype is empty. -/
def ms_parse_reference (reference_sequence_name : String) : String × String :=
  match pyRFind reference_sequence_name '_' with
  | some i =>
    if 0 < i then
      (⟨reference_sequence_name.data.take i⟩, ⟨reference_sequence_name.data.drop (i + 1)⟩)
    else (reference_sequence_name, "")
  | none => (reference_sequence_name, "")

/-! ## Single-sample merge: `bam_utils.convert`, lines 408-436

The first worker result is adopted verbatim; each later result's EC
table is folded in key by key (lines 413-419). -/

/-- The EC part of a single-sample worker result being merged. -/
structure SsMerge where
  ec : Dict Nat
  ec_idx : Dict Nat
deriving DecidableEq

/-- One key of the `# combine ec` block (lines 414-419): add the count
when the key exists, else insert it with a fresh index. -/
def combine_step (acc : SsMerge) (kv : String × Nat) : SsMerge :=
  if hasKey acc.ec kv.1 then { acc with ec := addCount acc.ec kv.1 kv.2 }
  else { ec := acc.ec ++ [kv], ec_idx := setVal acc.ec_idx kv.1 acc.ec_idx.length }

/-- The `# combine ec` block (lines 413-419) for one later result. -/
def combine_result (final : SsMerge) (result : SsMerge) : SsMerge :=
  result.ec.foldl combine_step final

/-- The whole merge loop (lines 408-419): first result adopted, the
rest combined in arrival order. -/
def merge_results : List SsMerge → SsMerge
  | [] => ⟨[], []⟩
  | r :: rest => rest.foldl combine_result r

/-! ## Multi-sample merge: `bam_utils_multisample.convert`, lines 486-547 -/

/-- The coordinator state built by the multi-sample merge loop. -/
structure MsMerge where
  ec : EcCrTable
  ec_idx : Dict Nat
  CRS : Dict Nat
  cr_totals : Dict Nat
  ec_totals : Dict Nat
deriving DecidableEq

/-- Inner loop body of the first-result adoption (lines 503-515): CRS
insert-if-absent with a dense index, then the totals. -/
def adopt_inner (eckey : String) (m : MsMerge) (q : String × Nat) : MsMerge :=
  let m : MsMerge :=
    if hasKey m.CRS q.1 then m
    else { m with CRS := setVal m.CRS q.1 m.CRS.length }
  { m with
    cr_totals := addCount m.cr_totals q.1 q.2,
    ec_totals := addCount m.ec_totals eckey q.2 }

/-- Outer loop body of the first-result adoption (lines 500-515):
copy the EC entry into `new_ecs`, assign its index, then the inner
loop. -/
def adopt_outer (m : MsMerge) (p : String × Dict Nat) : MsMerge :=
  let m : MsMerge := { m with
    ec := m.ec ++ [p],
    ec_idx := setVal m.ec_idx p.1 m.ec_idx.length }
  p.2.foldl (adopt_inner p.1) m

/-- Adoption of the first worker result (lines 494-517). -/
def adopt_first (r : EcCrTable) : MsMerge :=
  r.foldl adopt_outer ⟨[], [], [], [], []⟩

/-- Inner loop body of the later-result combination (lines 524-547).
Note the source first executes `CRS[crkey] = 1` (line 525), which makes
the following `if crkey not in CRS` re-index (lines 527-528) dead
code. -/
def combine_ms_inner (eckey : String) (m : MsMerge) (q : String × Nat) : MsMerge :=
  let m : MsMerge := { m with CRS := setVal m.CRS q.1 1 }
  let m : MsMerge :=
    if hasKey m.CRS q.1 then m
    else { m with CRS := setVal m.CRS q.1 m.CRS.length }
  let m : MsMerge := { m with
    cr_totals := addCount m.cr_totals q.1 q.2,
    ec_totals := addCount m.ec_totals eckey q.2 }
  if hasKey m.ec eckey then { m with ec := ecAddMs m.ec eckey q.1 q.2 }
  else { m with
    ec := m.ec ++ [(eckey, [(q.1, q.2)])],
    ec_idx := setVal m.ec_idx eckey m.ec_idx.length }

/-- Outer loop body of the later-result combination (lines 523-547). -/
def combine_ms_outer (m : MsMerge) (p : String × Dict Nat) : MsMerge :=
  p.2.foldl (combine_ms_inner p.1) m

/-- Combination of a later worker result (lines 523-547). -/
def combine_ms (m0 : MsMerge) (r : EcCrTable) : MsMerge :=
  r.foldl combine_ms_outer m0

/-- The whole multi-sample merge loop over worker results in arrival
order (lines 490-547). -/
def merge_ms : List EcCrTable → MsMerge
  | [] => ⟨[], [], [], [], []⟩
  | r :: rest => rest.foldl combine_ms (adopt_first r)

/-! ## Minimum-count filter: `bam_utils_multisample.convert`, lines 583-618 -/

/-- The output of the filtering step. -/
structure MsFiltered where
  CRS : Dict Nat
  ec : EcCrTable
  ec_idx : Dict Nat
  ec_totals : Dict Nat
deriving DecidableEq

/-- One barcode of the CRS rebuild (lines 588-591): keep it when its
total reaches the minimum, assigning the next dense index. -/
def crs_rebuild_step (minimum_count : Int) (acc : Dict Nat) (p : String × Nat) :
    Dict Nat :=
  if (p.2 : Int) ≥ minimum_count then
    (if hasKey acc p.1 then acc else setVal acc p.1 acc.length)
  else acc

/-- One barcode of the per-EC inner loop (lines 604-608). -/
def filter_entry_step (CRS crs : Dict Nat) (et : Dict Nat × Nat) (q : String × Nat) :
    Dict Nat × Nat :=
  if hasKey CRS q.1 then (setVal et.1 q.1 ((getVal? crs q.1).getD 0), et.2 + q.2)
  else et

/-- The per-EC inner loop (lines 601-608): keep the counts of surviving
barcodes and accumulate the kept total. -/
def filter_entry (CRS : Dict Nat) (crs : Dict Nat) : Dict Nat × Nat :=
  crs.foldl (filter_entry_step CRS crs) ([], 0)

/-- One EC of the table rebuild (lines 598-614): filter its barcodes
and keep the EC only when something survives. -/
def new_ecs_step (CRS : Dict Nat) (acc : EcCrTable × Dict Nat × Dict Nat)
    (p : String × Dict Nat) : EcCrTable × Dict Nat × Dict Nat :=
  let et := filter_entry CRS p.2
  if et.1.length > 0 then
    (acc.1 ++ [(p.1, et.1)], setVal acc.2.1 p.1 acc.2.1.length,
      setVal acc.2.2 p.1 et.2)
  else acc

/-- The minimum-count filter (lines 583-618): rebuild the CRS table
from the barcode totals, then rebuild the EC table keeping only
surviving barcodes and dropping ECs left empty. -/
def filter_min (minimum_count : Int) (cr_totals : Dict Nat) (ec0 : EcCrTable) :
    MsFiltered :=
  let CRS : Dict Nat := cr_totals.foldl (crs_rebuild_step minimum_count) []
  let out := ec0.foldl (new_ecs_step CRS) ([], [], [])
  ⟨CRS, out.1, out.2.1, out.2.2⟩

/-! ## v1 serialization, mapping section: `bam_utils.convert`, lines 549-592

Only the mapping section is modelled: its count (first pass,
lines 552-564) and the triples written (second pass, lines 566-592).
A `KeyError` from a lookup aborts serialization (caught at line 600);
it is an `Except` error here. -/

/-- Modelled from the spec: `utils.list_to_int` of `utils.py`, which is
not under `src/`.  Per the spec the haplotype bitmask treats the 0/1
incidence list with bit position 0 being the first haplotype in sorted
order, so element `i` has weight `2 ^ i` (scenario S3:
`list_to_int [1,0,1] = 5`). -/
def list_to_int (bits : List Nat) : Nat :=
  (bits.enum.map fun p => p.2 * 2 ^ p.1).sum

/-- The distinct main targets referenced by one EC key
(`temp_main_targets`, lines 554-559 and 567-572): look up each tid of
the key in `target_idx_to_main_target` and deduplicate.  A Python `set`
is modelled as the first-occurrence deduplicated list; only membership
and size of the set are used by the claims. -/
def ec_main_targets (tmap : Dict String) (k : String) : Except String (List String) :=
  (pySplitComma k).foldlM
    (fun acc idx =>
      match getVal? tmap idx with
      | none => .error "KeyError"
      | some mt => .ok (appendAbsent acc mt))
    []

/-- The first pass computing the mapping-section count
(lines 552-564). -/
def mapping_counter (ec : Dict Nat) (tmap : Dict String) : Except String Nat :=
  ec.foldlM
    (fun c p => do
      let mts ← ec_main_targets tmap p.1
      pure (c + mts.length))
    0

/-- The haplotype incidence bits of one (EC, main target) pair
(lines 578-587), via the pysam `gettid` header lookup. -/
def haplotype_bits (gettid : String → Int) (arr_target_idx : List String)
    (haplotypes : List String) (main_target : String) : List Nat :=
  haplotypes.map fun hap =>
    if toString (gettid (main_target ++ "_" ++ hap)) ∈ arr_target_idx then 1 else 0

/-- The second pass writing one
`(ec_idx, main_target_idx, haplotype_bitmask)` triple per (EC, main
target) pair, iterating ECs in insertion order (lines 566-592). -/
def mapping_triples (ec : Dict Nat) (ec_idx : Dict Nat) (main_targets : Dict Nat)
    (tmap : Dict String) (haplotypes : List String) (gettid : String → Int) :
    Except String (List (Nat × Nat × Nat)) :=
  ec.foldlM
    (fun ts p => do
      let mts ← ec_main_targets tmap p.1
      let arr := pySplitComma p.1
      mts.foldlM
        (fun ts mt =>
          match getVal? ec_idx p.1, getVal? main_targets mt with
          | some ei, some mi =>
            .ok (ts ++ [(ei, mi, list_to_int (haplotype_bits gettid arr haplotypes mt))])
          | _, _ => .error "KeyError")
        ts)
    []

/-! ## EOF repair: `bam_utils.fix_bam`, lines 79-108

The file is a byte list.  `sys.exit` on a bad signature is the `none`
result.  (A file shorter than 28 bytes would make the Python
`seek(size - 28)` negative and raise; the claims only concern files of
at least the signature plus marker length.) -/

/-- The 16-byte BGZF+BC signature (`BAM_HEADER`, line 23). -/
def BAM_HEADER : List Nat :=
  [0x1f, 0x8b, 0x08, 0x04, 0x00, 0x00, 0x00, 0x00, 0x00, 0xff, 0x06, 0x00,
   0x42, 0x43, 0x02, 0x00]

/-- The 28-byte BGZF EOF marker (`BAM_EOF`, line 24). -/
def BAM_EOF : List Nat :=
  [0x1f, 0x8b, 0x08, 0x04, 0x00, 0x00, 0x00, 0x00, 0x00, 0xff, 0x06, 0x00,
   0x42, 0x43, 0x02, 0x00, 0x1b, 0x00, 0x03, 0x00, 0x00, 0x00, 0x00, 0x00,
   0x00, 0x00, 0x00, 0x00]

/-- `fix_bam` (lines 79-108): check the signature, then append the EOF
marker if the last 28 bytes are not already the marker. -/
def fix_bam (file : List Nat) : Option (List Nat) :=
  if file.take 16 ≠ BAM_HEADER then none
  else if file.drop (file.length - 28) = BAM_EOF then some file
  else some (file ++ BAM_EOF)

/-! ## Chunk planning: `bam_utils.calculate_chunks`, lines 715-818

The BGZF scan and the pysam cursor are abstracted into a `BamModel`:
the scanned block start offsets and uncompressed lengths (in file
order), the header size, and the alignment stream as a list of
(virtual-offset, read-name) pairs in stream order, where the offset of
an alignment is the pysam `tell()` value at which it starts.  Every
exception raised inside the `try` of line 726 is caught by the
`except Exception` handler of line 817, which prints and implicitly
returns `None`; the body is therefore an `Except`, and the explicit
`return` (with value `None`) of the middle-boundary branch (line 802)
is the `.ok none` outcome. -/

/-- The abstract single BAM input of `calculate_chunks`. -/
structure BamModel where
  block_offsets : List Nat
  decompressed_lengths : List Nat
  header_size : Nat
  alignments : List (Nat × String)
deriving DecidableEq

/-- `bgzf.make_virtual_offset` (block raw offset in the high 48 bits,
intra-block offset in the low 16). -/
def make_virtual_offset (b o : Nat) : Nat := b * 65536 + o

/-- `bgzf.split_virtual_offset`. -/
def split_virtual_offset (vo : Nat) : Nat × Nat := (vo / 65536, vo % 65536)

/-- The chunk descriptor (`ParseRecord`, line 28). -/
structure ParseRecord where
  header_size : Nat
  begin_read_offset : Nat
  begin_read_size : Int
  file_offset : Nat
  file_bytes : Int
  end_read_offset : Nat
  end_read_size : Nat
deriving DecidableEq

/-- The value returned by `calculate_chunks`: the degenerate
`[0, -1]` whole-file range for `num_chunks == 1`, or a `ParseRecord`
per chunk. -/
inductive Chunk where
  | range (lo hi : Int)
  | record (pr : ParseRecord)
deriving DecidableEq

/-- pysam `seek(vo)` followed by iteration: the suffix of the stream
from the first alignment at or after the virtual offset. -/
def seekStream (bam : BamModel) (vo : Nat) : List (Nat × String) :=
  bam.alignments.dropWhile fun a => a.1 < vo

/-- The boundary-advance loop (lines 754-759): skip alignments whose
read name equals the first one's; the answer is the virtual offset of
the first alignment with a different name.  Reaching the end of the
stream raises `StopIteration` out of the loop (it is not caught by any
inner handler here). -/
def findBoundaryGo (q0 : String) : List (Nat × String) → Except String Nat
  | [] => .error "StopIteration"
  | a :: rest => if a.2 = q0 then findBoundaryGo q0 rest else .ok a.1

/-- Boundary adjustment from a seek target (lines 752-759). -/
def find_boundary (bam : BamModel) (vo : Nat) : Except String Nat :=
  match seekStream bam vo with
  | [] => .error "StopIteration"
  | a0 :: rest => findBoundaryGo a0.2 rest

/-- Python `list.index(x)`: position of the first occurrence,
`ValueError` when absent. -/
def pyIndex (l : List Nat) (x : Nat) : Except String Nat :=
  let i := l.findIdx (· == x)
  if i < l.length then .ok i else .error "ValueError"

/-- One boundary per loop index (lines 750-761): fetch the span's first
block offset, seek there and advance to a read-name change. -/
def boundaries_go (bam : BamModel) (d m : Nat) :
    List Nat → List (Nat × Nat) → Except String (List (Nat × Nat))
  | [], acc => .ok acc
  | i :: rest, acc =>
    match bam.block_offsets.get? (d * i + min i m) with
    | none => .error "IndexError"
    | some b =>
      match find_boundary bam (make_virtual_offset b 0) with
      | .error e => .error e
      | .ok vo => boundaries_go bam d m rest (acc ++ [split_virtual_offset vo])

/-- The boundary-collection loop (lines 743-761): `divmod` partitioning
of the block offsets and per-boundary adjustment.  `num_chunks = 0`
makes the Python `divmod` raise `ZeroDivisionError`. -/
def partitioned_offsets (bam : BamModel) (num_chunks : Nat) :
    Except String (List (Nat × Nat)) :=
  if num_chunks = 0 then .error "ZeroDivisionError"
  else
    boundaries_go bam (bam.block_offsets.length / num_chunks)
      (bam.block_offsets.length % num_chunks)
      (List.range' 1 (num_chunks - 1)) [(bam.header_size, 0)]

/-- The record-building loop (lines 766-813), one position at a time.
`.ok none` is the early `return` of the middle-boundary-at-block-start
branch (lines 799-802); `.error` is a raised `IndexError`/`ValueError`
that the outer handler will turn into `None`. -/
def build_go (bam : BamModel) (po : List (Nat × Nat)) (num_chunks : Nat) :
    List Nat → List ParseRecord → Except String (Option (List ParseRecord))
  | [], acc => .ok (some acc.reverse)
  | i :: rest, acc =>
    match po.get? i with
    | none => .error "IndexError"
    | some offset =>
      match pyIndex bam.block_offsets offset.1 with
      | .error e => .error e
      | .ok index =>
        if i = 0 then
          match po.get? (i + 1) with
          | none => .error "IndexError"
          | some nxt =>
            let file_offset := bam.block_offsets.getD index 0
            let pr : ParseRecord :=
              ⟨bam.header_size, 0, 0, file_offset, (nxt.1 : Int) - (file_offset : Int),
                make_virtual_offset nxt.1 0, nxt.2⟩
            build_go bam po num_chunks rest (pr :: acc)
        else if i = num_chunks - 1 then
          match bam.decompressed_lengths.get? index, bam.block_offsets.get? (index + 1) with
          | some dl, some fo =>
            let pr : ParseRecord :=
              ⟨bam.header_size, make_virtual_offset offset.1 offset.2,
                (dl : Int) - (offset.2 : Int), fo, -1, 0, 0⟩
            build_go bam po num_chunks rest (pr :: acc)
          | _, _ => .error "IndexError"
        else if offset.2 = 0 then
          .ok none
        else
          match po.get? (i + 1), bam.decompressed_lengths.get? index,
              bam.block_offsets.get? (index + 1) with
          | some nxt, some dl, some fo =>
            let pr : ParseRecord :=
              ⟨bam.header_size, make_virtual_offset offset.1 offset.2,
                (dl : Int) - (offset.2 : Int), fo, (nxt.1 : Int) - (fo : Int),
                make_virtual_offset nxt.1 0, nxt.2⟩
            build_go bam po num_chunks rest (pr :: acc)
          | _, _, _ => .error "IndexError"

/-- The body of the `try` of `calculate_chunks` (lines 726-815) for
`num_chunks ≠ 1`. -/
def calc_body (bam : BamModel) (num_chunks : Nat) :
    Except String (Option (List ParseRecord)) :=
  match partitioned_offsets bam num_chunks with
  | .error e => .error e
  | .ok po => build_go bam po num_chunks (List.range num_chunks) []

/-- `calculate_chunks` (lines 715-818): the degenerate single chunk,
else the guarded body; any exception is caught at line 817 and the
function falls through returning `None`. -/
def calculate_chunks (bam : BamModel) (num_chunks : Nat) : Option (List Chunk) :=
  if num_chunks = 1 then some [Chunk.range 0 (-1)]
  else
    match calc_body bam num_chunks with
    | .error _ => none
    | .ok none => none
    | .ok (some prs) => some (prs.map Chunk.record)

instance {ε α : Type} [DecidableEq ε] [DecidableEq α] : DecidableEq (Except ε α) :=
  fun a b =>
  match a, b with
  | .error e, .error f =>
    if h : e = f then .isTrue (congrArg Except.error h)
    else .isFalse fun hh => h (Except.error.inj hh)
  | .error _, .ok _ => .isFalse fun hh => Except.noConfusion hh
  | .ok _, .error _ => .isFalse fun hh => Except.noConfusion hh
  | .ok x, .ok y =>
    if h : x = y then .isTrue (congrArg Except.ok h)
    else .isFalse fun hh => h (Except.ok.inj hh)

/-- A concrete 28-byte file with the signature but without the EOF
marker at its end. -/
def c8file : List Nat :=
  [0x1f, 0x8b, 0x08, 0x04, 0x00, 0x00, 0x00, 0x00, 0x00, 0xff, 0x06, 0x00,
   0x42, 0x43, 0x02, 0x00, 0, 0, 0, 0, 0, 0, 0, 0, 0, 0, 0, 0]

/-! ## Claim C5: CRS dense indices in the multi-sample merge loop

The claim states that throughout the merge loop the CRS table maps
every barcode to the rank of its first appearance in merge arrival
order.  The source's else-branch executes `CRS[crkey] = 1` (line 525)
before the (now unreachable) `if crkey not in CRS` re-index
(lines 527-528), so every barcode occurring in a result after the first
ends up with value 1 -- overwriting the dense index of barcodes first
seen in the first result and assigning 1 instead of a fresh rank to new
barcodes.  The dead re-index check, the identical live check in the
first-result branch (lines 504-505), and the later use of `CRS[crskey]`
as a matrix column index (lines 720-724) show that the spec states the
intended behavior and line 525 is the slip. -/

/-- First worker result for the C5 failing input. -/
def c5first : EcCrTable := [("5", [("AAA", 1), ("BBB", 1)])]

/-- Second worker result for the C5 failing input. -/
def c5second : EcCrTable := [("5", [("AAA", 1), ("CCC", 1)])]

/-- A BAM model whose middle boundary for 3 chunks falls exactly on a
BGZF block boundary: read R2 ends exactly where block 300 begins. -/
def c7bam : BamModel :=
  ⟨[0, 100, 200, 300], [50, 60, 70, 80], 100,
    [(make_virtual_offset 100 0, "R1"), (make_virtual_offset 100 20, "R1"),
     (make_virtual_offset 200 0, "R2"), (make_virtual_offset 200 30, "R2"),
     (make_virtual_offset 300 0, "R3"), (make_virtual_offset 300 40, "R4")]⟩

/-- A BAM model with no alignments at all: the boundary-advance loop
raises `StopIteration` out of the body. -/
def c10bam : BamModel := ⟨[0, 100], [50, 60], 100, []⟩

/-! ## Claim C2: merged EC counts are sums of partial counts -/

/-- The total count stored for key `k` across all entries of a dict,
duplicates included (equal to the dict lookup when keys are unique). -/
def weight (d : Dict Nat) (k : String) : Nat :=
  (d.map fun p => if p.1 = k then p.2 else 0).sum

/-- The inner dict of a nested EC table at an outer key (empty when
absent). -/
def getDict (t : Dict (Dict Nat)) (ek : String) : Dict Nat :=
  (getVal? t ek).getD []

/-- The count of a nested EC table at an (EC key, barcode) pair. -/
def getCr (t : EcCrTable) (ek ck : String) : Nat := getNat (getDict t ek) ck

/-- The total count at an (EC key, barcode) pair across all entries of
a nested table, duplicates included. -/
def weight2 (r : EcCrTable) (ek ck : String) : Nat :=
  (r.map fun p => if p.1 = ek then weight p.2 ck else 0).sum

/-! ## Claim C4: the minimum-count filter

The filter reads `cr_totals` and the merged EC table.  The key
connecting fact, proved below as an invariant of the merge loop, is
that `cr_totals[cr]` equals the barcode's total count summed over all
ECs of the merged table. -/

/-- The total count of one barcode summed over all ECs of a nested
table. -/
def totalOf (t : EcCrTable) (ck : String) : Nat :=
  (t.map fun p => getNat p.2 ck).sum

/-! ## Claims C1 and C3: aggregator flush dynamics and EC-key form -/

/-- A mapped single-sample alignment of read `r` against target `t`. -/
def mkAln (r : String) (t : Int) : Alignment := ⟨false, t, r⟩

/-- A mapped, unpaired multi-sample alignment of read `r` against
target `t`. -/
def mkMs (r : String) (t : Int) : MsAlignment := ⟨false, false, false, false, t, 0, 0, 0, r⟩

/-- The tables `process_piece` ends up with: the final state on success,
the state at the exception on failure (the outer handler of line 304
returns the partial tables either way). -/
def exPP : Except PPState PPState → PPState
  | .ok st => st
  | .error st => st

/-- Invariant of the `process_piece` loop state: `target_ids` holds
duplicate-free decimal tid strings, it is nonempty whenever a read is
pending, the remembered `tid` is a decimal string, and every EC key
recorded so far is canonical. -/
def ppInv (st : PPState) : Prop :=
  (∀ s ∈ st.target_ids, ∃ z : Int, s = toString z) ∧
  st.target_ids.Nodup ∧
  (st.read_id.isSome = true → st.target_ids ≠ []) ∧
  (∀ t, st.tid = some t → ∃ z : Int, t = toString z) ∧
  (∀ k ∈ keys st.ec, isCanonicalKey k)

/-- Invariant of the `process_convert_bam` loop state, analogous to
`ppInv`. -/
def msInv (st : MsState) : Prop :=
  (∀ s ∈ st.reference_ids, ∃ z : Int, s = toString z) ∧
  st.reference_ids.Nodup ∧
  (st.query_name.isSome = true → st.reference_ids ≠ []) ∧
  (∀ k ∈ keys st.ec, isCanonicalKey k)

/-- A concrete header reference list covering tids 0 through 10. -/
def refsW : List String :=
  ["T0_a", "T1_a", "T2_a", "T3_a", "T4_a", "T5_a", "T6_a", "T7_a", "T8_a",
   "T9_a", "T10_a"]

/-! ## Basic lemmas about the dictionary operations -/

@[simp] theorem keys_nil : keys ([] : Dict β) = [] := rfl

@[simp] theorem keys_cons (p : String × β) (rest : Dict β) :
    keys (p :: rest) = p.1 :: keys rest := rfl

theorem keys_append (d d' : Dict β) : keys (d ++ d') = keys d ++ keys d' := by
  simp [keys]

@[simp] theorem getVal?_nil (k : String) : getVal? ([] : Dict β) k = none := rfl

theorem getVal?_cons (p : String × β) (rest : Dict β) (k : String) :
    getVal? (p :: rest) k = if p.1 = k then some p.2 else getVal? rest k := by
  simp only [getVal?, List.find?]
  by_cases h : p.1 = k
  · simp [h]
  · simp [getVal?, beq_eq_false_iff_ne.mpr h, h]

@[simp] theorem getNat_nil (k : String) : getNat ([] : Dict Nat) k = 0 := rfl

theorem getNat_cons (p : String × Nat) (rest : Dict Nat) (k : String) :
    getNat (p :: rest) k = if p.1 = k then p.2 else getNat rest k := by
  simp only [getNat, getVal?_cons]
  by_cases h : p.1 = k <;> simp [h]

theorem getNat_addCount (d : Dict Nat) (k k' : String) (c : Nat) :
    getNat (addCount d k c) k' = getNat d k' + if k' = k then c else 0 := by
  induction d with
  | nil =>
    simp only [addCount, getNat_cons, getNat_nil, Nat.zero_add]
    by_cases h : k' = k
    · simp [h]
    · simp [h, Ne.symm h]
  | cons p rest ih =>
    simp only [addCount]
    by_cases h : p.1 = k
    · rw [if_pos (beq_iff_eq.mpr h), getNat_cons, getNat_cons]
      by_cases h' : k' = k
      · simp [h, h']
      · simp [h, h', Ne.symm h']
    · rw [if_neg (by simp [h]), getNat_cons, getNat_cons, ih]
      by_cases h' : p.1 = k'
      · have hkk : ¬ k' = k := fun hh => h (h'.trans hh)
        simp [h', hkk]
      · simp [h']

@[simp] theorem hasKey_nil (k : String) : hasKey ([] : Dict β) k = false := rfl

theorem hasKey_cons (p : String × β) (rest : Dict β) (k : String) :
    hasKey (p :: rest) k = (p.1 == k || hasKey rest k) := by
  simp only [hasKey, getVal?_cons]
  by_cases h : p.1 = k <;> simp [h]

theorem hasKey_iff_mem_keys (d : Dict β) (k : String) :
    hasKey d k = true ↔ k ∈ keys d := by
  induction d with
  | nil => simp
  | cons p rest ih =>
    rw [hasKey_cons, keys_cons, List.mem_cons, Bool.or_eq_true, beq_iff_eq, ih, eq_comm]

theorem keys_setVal (d : Dict β) (k : String) (v : β) :
    keys (setVal d k v) = if hasKey d k then keys d else keys d ++ [k] := by
  induction d with
  | nil => simp [setVal]
  | cons p rest ih =>
    simp only [setVal, hasKey_cons]
    by_cases h : p.1 = k
    · rw [if_pos (beq_iff_eq.mpr h), if_pos (by simp [h]), keys_cons, keys_cons, h]
    · rw [if_neg (by simp [h]), keys_cons, ih]
      by_cases h' : hasKey rest k
      · rw [if_pos h', if_pos (by simp [h, h']), keys_cons]
      · rw [if_neg (by simpa using h'), if_neg (by simp [h, h']), keys_cons, List.cons_append]

theorem getVal?_setVal (d : Dict β) (k k' : String) (v : β) :
    getVal? (setVal d k v) k' = if k' = k then some v else getVal? d k' := by
  induction d with
  | nil =>
    simp only [setVal, getVal?_cons, getVal?_nil]
    by_cases h : k' = k
    · rw [if_pos h.symm, if_pos h]
    · rw [if_neg (Ne.symm h), if_neg h]
  | cons p rest ih =>
    simp only [setVal]
    by_cases h : p.1 = k
    · rw [if_pos (beq_iff_eq.mpr h), getVal?_cons, getVal?_cons]
      by_cases h' : k' = k
      · rw [if_pos h'.symm, if_pos h']
      · rw [if_neg (Ne.symm h'), if_neg h', if_neg (fun hh : p.1 = k' => h' (hh.symm.trans h))]
    · rw [if_neg (by simp [h]), getVal?_cons, getVal?_cons, ih]
      by_cases h' : p.1 = k'
      · rw [if_pos h', if_pos h', if_neg (fun hh : k' = k => h (h'.trans hh))]
      · rw [if_neg h', if_neg h']

theorem getNat_setVal (d : Dict Nat) (k k' : String) (v : Nat) :
    getNat (setVal d k v) k' = if k' = k then v else getNat d k' := by
  simp only [getNat, getVal?_setVal]
  by_cases h : k' = k <;> simp [h]

theorem keys_addCount (d : Dict Nat) (k : String) (c : Nat) :
    keys (addCount d k c) = if hasKey d k then keys d else keys d ++ [k] := by
  induction d with
  | nil => simp [addCount]
  | cons p rest ih =>
    simp only [addCount, hasKey_cons]
    by_cases h : p.1 = k
    · rw [if_pos (beq_iff_eq.mpr h), if_pos (by simp [h]), keys_cons, keys_cons]
    · rw [if_neg (by simp [h]), keys_cons, ih]
      by_cases h' : hasKey rest k
      · rw [if_pos h', if_pos (by simp [h, h']), keys_cons]
      · rw [if_neg (by simpa using h'), if_neg (by simp [h, h']), keys_cons, List.cons_append]

theorem nodup_keys_addCount (d : Dict Nat) (k : String) (c : Nat)
    (h : (keys d).Nodup) : (keys (addCount d k c)).Nodup := by
  rw [keys_addCount]
  by_cases hk : hasKey d k
  · rwa [if_pos hk]
  · rw [if_neg (by simpa using hk)]
    refine List.Nodup.append h (List.nodup_singleton k) ?_
    intro a ha hb
    rw [List.mem_singleton] at hb
    subst hb
    exact hk ((hasKey_iff_mem_keys d a).mpr ha)

theorem nodup_keys_setVal (d : Dict β) (k : String) (v : β)
    (h : (keys d).Nodup) : (keys (setVal d k v)).Nodup := by
  rw [keys_setVal]
  by_cases hk : hasKey d k
  · rwa [if_pos hk]
  · rw [if_neg (by simpa using hk)]
    refine List.Nodup.append h (List.nodup_singleton k) ?_
    intro a ha hb
    rw [List.mem_singleton] at hb
    subst hb
    exact hk ((hasKey_iff_mem_keys d a).mpr ha)

/-! ## Lemmas about `appendAbsent` (Python sets and append-if-absent) -/

theorem mem_appendAbsent (l : List String) (x s : String) :
    s ∈ appendAbsent l x ↔ s ∈ l ∨ s = x := by
  simp only [appendAbsent]
  by_cases h : x ∈ l
  · rw [if_pos h]
    constructor
    · exact Or.inl
    · rintro (hs | rfl)
      · exact hs
      · exact h
  · rw [if_neg h]
    simp

theorem nodup_appendAbsent (l : List String) (x : String) (h : l.Nodup) :
    (appendAbsent l x).Nodup := by
  simp only [appendAbsent]
  by_cases hx : x ∈ l
  · rwa [if_pos hx]
  · rw [if_neg hx]
    refine List.Nodup.append h (List.nodup_singleton x) ?_
    intro a ha hb
    rw [List.mem_singleton] at hb
    subst hb
    exact hx ha

theorem toFinset_appendAbsent (l : List String) (x : String) :
    (appendAbsent l x).toFinset = insert x l.toFinset := by
  simp only [appendAbsent]
  by_cases hx : x ∈ l
  · rw [if_pos hx, Finset.insert_eq_self.mpr (List.mem_toFinset.mpr hx)]
  · rw [if_neg hx]
    ext a
    simp [or_comm]

theorem foldl_appendAbsent_nodup (xs : List String) (l : List String) (h : l.Nodup) :
    (xs.foldl appendAbsent l).Nodup := by
  induction xs generalizing l with
  | nil => exact h
  | cons x xs ih => exact ih _ (nodup_appendAbsent l x h)

theorem foldl_appendAbsent_toFinset (xs : List String) (l : List String) :
    (xs.foldl appendAbsent l).toFinset = l.toFinset ∪ xs.toFinset := by
  induction xs generalizing l with
  | nil => simp
  | cons x xs ih =>
    rw [List.foldl_cons, ih, toFinset_appendAbsent]
    ext a
    simp only [Finset.mem_union, Finset.mem_insert, List.mem_toFinset, List.toFinset_cons]
    tauto

theorem mem_foldl_appendAbsent (xs : List String) (l : List String) (s : String) :
    s ∈ xs.foldl appendAbsent l ↔ s ∈ l ∨ s ∈ xs := by
  have := foldl_appendAbsent_toFinset xs l
  constructor
  · intro h
    have : s ∈ (xs.foldl appendAbsent l).toFinset := List.mem_toFinset.mpr h
    rw [foldl_appendAbsent_toFinset] at this
    simpa using this
  · intro h
    have : s ∈ l.toFinset ∪ xs.toFinset := by simpa using h
    rw [← foldl_appendAbsent_toFinset] at this
    simpa using this

/-! ## Lemmas about sorting -/

theorem pySort_sorted (l : List String) : List.Sorted strle (pySort l) :=
  List.sorted_insertionSort strle l

theorem pySort_perm (l : List String) : (pySort l).Perm l :=
  List.perm_insertionSort strle l

/-- Two duplicate-free lists with the same elements sort identically. -/
theorem pySort_eq_of_toFinset (l1 l2 : List String) (h1 : l1.Nodup) (h2 : l2.Nodup)
    (h : l1.toFinset = l2.toFinset) : pySort l1 = pySort l2 := by
  apply List.eq_of_perm_of_sorted (r := strle)
  · exact (pySort_perm l1).trans
      ((List.perm_of_nodup_nodup_toFinset_eq h1 h2 h).trans (pySort_perm l2).symm)
  · exact pySort_sorted l1
  · exact pySort_sorted l2

/-! ## Claim C8: EOF repair by `fix_bam` -/

/-- C8: applied to a file that starts with the 16-byte BGZF+BC
signature and whose last 28 bytes are not the EOF marker, `fix_bam`
appends exactly the 28-byte BGZF EOF block, after which the file ends
with the marker; a second application leaves the file unchanged. -/
theorem C8_fix_bam_appends_eof (f : List Nat)
    (hsig : f.take 16 = BAM_HEADER)
    (hlen : 28 ≤ f.length)
    (hne : f.drop (f.length - 28) ≠ BAM_EOF) :
    fix_bam f = some (f ++ BAM_EOF) ∧
    (f ++ BAM_EOF).length = f.length + 28 ∧
    (f ++ BAM_EOF).drop ((f ++ BAM_EOF).length - 28) = BAM_EOF ∧
    fix_bam (f ++ BAM_EOF) = some (f ++ BAM_EOF) := by
  have heof : BAM_EOF.length = 28 := rfl
  have hlen2 : (f ++ BAM_EOF).length = f.length + 28 := by
    rw [List.length_append, heof]
  have hdrop : (f ++ BAM_EOF).drop ((f ++ BAM_EOF).length - 28) = BAM_EOF := by
    rw [hlen2, Nat.add_sub_cancel, List.drop_left]
  refine ⟨?_, hlen2, hdrop, ?_⟩
  · rw [fix_bam, if_neg (by simp [hsig]), if_neg hne]
  · have htake : (f ++ BAM_EOF).take 16 = BAM_HEADER := by
      rw [List.take_append_of_le_length (le_trans (by norm_num) hlen), hsig]
    rw [fix_bam, if_neg (by simp [htake]), if_pos hdrop]

/-- Witness for C8 at `c8file`. -/
theorem C8_fix_bam_appends_eof_witness :
    fix_bam c8file = some (c8file ++ BAM_EOF) ∧
    (c8file ++ BAM_EOF).length = c8file.length + 28 ∧
    (c8file ++ BAM_EOF).drop ((c8file ++ BAM_EOF).length - 28) = BAM_EOF ∧
    fix_bam (c8file ++ BAM_EOF) = some (c8file ++ BAM_EOF) :=
  C8_fix_bam_appends_eof c8file (by decide) (by decide) (by decide)

/-- C5, evaluated at the failing input: after adopting the first result
the barcode AAA has dense index 0 and BBB has 1, but merging the second
result overwrites AAA to 1 and stores 1 (not the fresh rank 2) for the
new barcode CCC. -/
theorem C5_crs_value_overwritten :
    (adopt_first c5first).CRS = [("AAA", 0), ("BBB", 1)] ∧
    (merge_ms [c5first, c5second]).CRS = [("AAA", 1), ("BBB", 1), ("CCC", 1)] := by
  constructor <;> rfl

/-! ## Claim C6: reference names without an underscore -/

/-- C6 counterexample: in `process_piece` a reference name with no
underscore is not fatal.  On the single-alignment stream over the
header `["ABC"]` the worker returns a result with a nonempty haplotype
set (the whole name), a nonempty EC table, and a target-map entry for
the truncated name -- it does not report an error and return empty as
the claim states. -/
theorem C6_counterexample :
    (process_piece ["ABC"] [[⟨false, 0, "R1"⟩]]).haplotypes = ["ABC"] ∧
    (process_piece ["ABC"] [[⟨false, 0, "R1"⟩]]).ec = [("0", 1)] ∧
    (process_piece ["ABC"] [[⟨false, 0, "R1"⟩]]).target_idx_to_main_target
      = [("0", "AB")] := by
  refine ⟨rfl, rfl, rfl⟩

/-- C6 as amended: a reference name with no underscore is not fatal in
single-sample mode.  `rfind` returns `-1` there, so the worker
continues with `main_target` equal to the name without its last
character and `haplotype` equal to the whole name (and records that
haplotype); in multi-sample mode the same name yields haplotype `""`
and `main_target` equal to the whole name. -/
theorem C6_no_underscore_parse (name : String) (h : pyRFind name '_' = none) :
    pp_main_target name = ⟨name.data.take (name.data.length - 1)⟩ ∧
    pp_haplotype name = name ∧
    ms_parse_reference name = (name, "") ∧
    ∀ (references : List String) (st : PPState) (a : Alignment),
      a.is_unmapped = false → getrname references a.tid = some name →
      ∃ st2, ppStep references st a = .ok st2 ∧ name ∈ st2.haplotypes := by
  refine ⟨by rw [pp_main_target, h], by rw [pp_haplotype, h], by rw [ms_parse_reference, h], ?_⟩
  intro references st a hun hname
  have hhap : pp_haplotype name = name := by rw [pp_haplotype, h]
  rw [ppStep, hun]
  simp only [Bool.false_eq_true, if_false, hname]
  by_cases h1 : st.read_id.getD a.qname ≠ a.qname
  · rw [if_pos h1]
    exact ⟨_, rfl, by simp only [hhap]; exact (mem_appendAbsent _ _ _).mpr (Or.inr rfl)⟩
  · rw [if_neg h1]
    by_cases h2 : toString a.tid ∈ st.target_ids
    · rw [if_pos h2]
      exact ⟨_, rfl, by simp only [hhap]; exact (mem_appendAbsent _ _ _).mpr (Or.inr rfl)⟩
    · rw [if_neg h2]
      exact ⟨_, rfl, by simp only [hhap]; exact (mem_appendAbsent _ _ _).mpr (Or.inr rfl)⟩

/-- Witness for C6 at the name `"ABC"`. -/
theorem C6_no_underscore_parse_witness :
    pp_main_target "ABC" = "AB" ∧ pp_haplotype "ABC" = "ABC" ∧
    ms_parse_reference "ABC" = ("ABC", "") ∧
    ∃ st2, ppStep ["ABC"] ⟨[], [], [], [], [], [], none, [], none, 0, 0⟩
        ⟨false, 0, "R1"⟩ = .ok st2 ∧ "ABC" ∈ st2.haplotypes := by
  obtain ⟨h1, h2, h3, h4⟩ := C6_no_underscore_parse "ABC" (by decide)
  exact ⟨by rw [h1]; decide, h2, h3, h4 ["ABC"] _ _ rfl (by decide)⟩

/-! ## Claims C7 and C10: `calculate_chunks` failure behavior -/

/-- When some position in the index list is a middle chunk whose
partitioned offset has intra-block offset 0, the record-building loop
can only end in the early `return` of lines 799-802 or in an exception
raised before reaching it. -/
theorem build_go_middle_zero (bam : BamModel) (po : List (Nat × Nat)) (n : Nat)
    (is : List Nat) (acc : List ParseRecord)
    (h : ∃ i ∈ is, i ≠ 0 ∧ i ≠ n - 1 ∧ ∃ b, po.get? i = some (b, 0)) :
    build_go bam po n is acc = .ok none ∨
      ∃ e, build_go bam po n is acc = .error e := by
  induction is generalizing acc with
  | nil =>
    obtain ⟨i, hi, -⟩ := h
    exact absurd hi (List.not_mem_nil i)
  | cons j rest ih =>
    obtain ⟨i, hi, hi0, hin, b, hpo⟩ := h
    have hmem : i = j ∨ i ∈ rest := List.mem_cons.mp hi
    rcases hj : po.get? j with - | offset
    · exact Or.inr ⟨"IndexError", by simp only [build_go, hj]⟩
    · rcases hidx : pyIndex bam.block_offsets offset.1 with e | index
      · exact Or.inr ⟨e, by simp only [build_go, hj, hidx]⟩
      · by_cases hj0 : j = 0
        · have hir : i ∈ rest := by
            rcases hmem with rfl | hm
            · exact absurd hj0 hi0
            · exact hm
          rcases hnx : po.get? (j + 1) with - | nxt
          · exact Or.inr ⟨"IndexError",
              by simp only [build_go, hj, hidx, if_pos hj0, hnx]⟩
          · simp only [build_go, hj, hidx, if_pos hj0, hnx]
            exact ih _ ⟨i, hir, hi0, hin, b, hpo⟩
        · by_cases hjn : j = n - 1
          · have hir : i ∈ rest := by
              rcases hmem with rfl | hm
              · exact absurd hjn hin
              · exact hm
            rcases hdl : bam.decompressed_lengths.get? index with - | dl
            · exact Or.inr ⟨"IndexError",
                by simp only [build_go, hj, hidx, if_neg hj0, if_pos hjn, hdl]⟩
            · rcases hfo : bam.block_offsets.get? (index + 1) with - | fo
              · exact Or.inr ⟨"IndexError",
                  by simp only [build_go, hj, hidx, if_neg hj0, if_pos hjn, hdl, hfo]⟩
              · simp only [build_go, hj, hidx, if_neg hj0, if_pos hjn, hdl, hfo]
                exact ih _ ⟨i, hir, hi0, hin, b, hpo⟩
          · by_cases hz : offset.2 = 0
            · exact Or.inl
                (by simp only [build_go, hj, hidx, if_neg hj0, if_neg hjn, if_pos hz])
            · have hir : i ∈ rest := by
                rcases hmem with rfl | hm
                · rw [hpo] at hj
                  cases hj
                  exact absurd rfl hz
                · exact hm
              rcases hnx : po.get? (j + 1) with - | nxt
              · exact Or.inr ⟨"IndexError",
                  by simp only [build_go, hj, hidx, if_neg hj0, if_neg hjn, if_neg hz, hnx]⟩
              · rcases hdl : bam.decompressed_lengths.get? index with - | dl
                · exact Or.inr ⟨"IndexError",
                    by simp only [build_go, hj, hidx, if_neg hj0, if_neg hjn, if_neg hz,
                      hnx, hdl]⟩
                · rcases hfo : bam.block_offsets.get? (index + 1) with - | fo
                  · exact Or.inr ⟨"IndexError",
                      by simp only [build_go, hj, hidx, if_neg hj0, if_neg hjn, if_neg hz,
                        hnx, hdl, hfo]⟩
                  · simp only [build_go, hj, hidx, if_neg hj0, if_neg hjn, if_neg hz,
                      hnx, hdl, hfo]
                    exact ih _ ⟨i, hir, hi0, hin, b, hpo⟩

/-- C7 counterexample: on `c7bam` with 3 chunks the middle boundary is
`(300, 0)` -- exactly a block boundary with intra-block offset 0 -- and
`calculate_chunks` does not succeed with a list of 3 records: it
returns `None` (the `'****HUH'` early return of lines 799-802). -/
theorem C7_counterexample :
    partitioned_offsets c7bam 3 = .ok [(100, 0), (300, 0), (300, 40)] ∧
    calculate_chunks c7bam 3 = none := by
  constructor <;> rfl

/-- C7 as amended: when a middle chunk's adjusted boundary falls
exactly on a BGZF block boundary (intra-block offset 0),
`calculate_chunks` does not succeed: it aborts and returns `None`
instead of a list of N ParseRecords. -/
theorem C7_middle_block_boundary_returns_none (bam : BamModel) (n : Nat)
    (po : List (Nat × Nat)) (i b : Nat)
    (hn1 : n ≠ 1)
    (hpo : partitioned_offsets bam n = .ok po)
    (hi : po.get? i = some (b, 0))
    (hi0 : 0 < i) (hin : i < n - 1) :
    calculate_chunks bam n = none := by
  rw [calculate_chunks, if_neg hn1]
  have hbody := build_go_middle_zero bam po n (List.range n) []
    ⟨i, List.mem_range.mpr (by omega), by omega, by omega, b, hi⟩
  have hcb : calc_body bam n = build_go bam po n (List.range n) [] := by
    rw [calc_body, hpo]
  rcases hbody with h | ⟨e, h⟩
  · rw [hcb, h]
  · rw [hcb, h]

/-- Witness for the amended C7 at `c7bam`. -/
theorem C7_middle_block_boundary_returns_none_witness :
    calculate_chunks c7bam 3 = none :=
  C7_middle_block_boundary_returns_none c7bam 3 [(100, 0), (300, 0), (300, 40)] 1 300
    (by decide) rfl rfl (by decide) (by decide)

/-- C10: `calculate_chunks` converts every internal failure into the
`None` result: whenever the body of its `try` block either raises (the
`.error` outcome, caught by the handler of line 817) or takes the early
`return` of the middle-boundary branch, the function returns `None`
rather than propagating an exception, for every chunk count other than
the degenerate 1. -/
theorem C10_calculate_chunks_never_raises (bam : BamModel) (n : Nat) (hn : n ≠ 1)
    (h : (∃ e, calc_body bam n = .error e) ∨ calc_body bam n = .ok none) :
    calculate_chunks bam n = none := by
  rw [calculate_chunks, if_neg hn]
  rcases h with ⟨e, he⟩ | h
  · rw [he]
  · rw [h]

/-- Witness for C10: on `c10bam` the body raises and the function
returns `None`. -/
theorem C10_calculate_chunks_never_raises_witness :
    calculate_chunks c10bam 2 = none :=
  C10_calculate_chunks_never_raises c10bam 2 (by decide)
    (Or.inl ⟨"StopIteration", rfl⟩)

theorem getNat_eq_zero_of_not_hasKey (d : Dict Nat) (k : String)
    (h : hasKey d k = false) : getNat d k = 0 := by
  rw [getNat]
  rcases hv : getVal? d k with - | v
  · rfl
  · rw [hasKey, hv] at h
    exact absurd h (by simp)

theorem getVal?_append (d d' : Dict β) (k : String) :
    getVal? (d ++ d') k = if hasKey d k then getVal? d k else getVal? d' k := by
  induction d with
  | nil => simp
  | cons p rest ih =>
    rw [List.cons_append, getVal?_cons, getVal?_cons, hasKey_cons]
    by_cases h : p.1 = k
    · rw [if_pos h, if_pos h, if_pos (by simp [h])]
    · rw [if_neg h, if_neg h, ih]
      by_cases h' : hasKey rest k
      · rw [if_pos h', if_pos (by simp [h, h'])]
      · rw [if_neg (by simpa using h'), if_neg (by simp [h, h'])]

theorem getNat_append (d d' : Dict Nat) (k : String) :
    getNat (d ++ d') k = if hasKey d k then getNat d k else getNat d' k := by
  simp only [getNat, getVal?_append]
  by_cases h : hasKey d k <;> simp [h]

@[simp] theorem weight_nil (k : String) : weight [] k = 0 := rfl

theorem weight_cons (p : String × Nat) (rest : Dict Nat) (k : String) :
    weight (p :: rest) k = (if p.1 = k then p.2 else 0) + weight rest k := by
  simp [weight]

theorem weight_eq_zero_of_not_mem (d : Dict Nat) (k : String) (h : ¬ k ∈ keys d) :
    weight d k = 0 := by
  induction d with
  | nil => rfl
  | cons p rest ih =>
    rw [keys_cons] at h
    rw [weight_cons, ih (fun hm => h (List.mem_cons.mpr (Or.inr hm))),
      if_neg (fun he : p.1 = k => h (List.mem_cons.mpr (Or.inl he.symm)))]

theorem weight_eq_getNat (d : Dict Nat) (k : String) (h : (keys d).Nodup) :
    weight d k = getNat d k := by
  induction d with
  | nil => rfl
  | cons p rest ih =>
    rw [keys_cons, List.nodup_cons] at h
    rw [weight_cons, getNat_cons]
    by_cases he : p.1 = k
    · rw [if_pos he, if_pos he, weight_eq_zero_of_not_mem rest k (he ▸ h.1), Nat.add_zero]
    · rw [if_neg he, if_neg he, ih h.2, Nat.zero_add]

theorem combine_step_ec (acc : SsMerge) (kv : String × Nat) (k : String) :
    getNat (combine_step acc kv).ec k
      = getNat acc.ec k + if kv.1 = k then kv.2 else 0 := by
  rw [combine_step]
  by_cases h : hasKey acc.ec kv.1
  · rw [if_pos h]
    show getNat (addCount acc.ec kv.1 kv.2) k = _
    rw [getNat_addCount]
    by_cases he : k = kv.1
    · rw [if_pos he, if_pos he.symm]
    · rw [if_neg he, if_neg (Ne.symm he)]
  · rw [if_neg h]
    show getNat (acc.ec ++ [kv]) k = _
    rw [getNat_append]
    by_cases hk : hasKey acc.ec k
    · rw [if_pos hk]
      have hne : ¬ kv.1 = k := fun he => by
        rw [he] at h
        exact h hk
      rw [if_neg hne, Nat.add_zero]
    · rw [if_neg (by simpa using hk), getNat_cons, getNat_nil,
        getNat_eq_zero_of_not_hasKey acc.ec k (by simpa using hk), Nat.zero_add]

theorem foldl_combine_step_ec (l : List (String × Nat)) (acc : SsMerge) (k : String) :
    getNat (l.foldl combine_step acc).ec k = getNat acc.ec k + weight l k := by
  induction l generalizing acc with
  | nil => simp
  | cons kv rest ih =>
    rw [List.foldl_cons, ih, combine_step_ec, weight_cons, Nat.add_assoc]

theorem foldl_combine_result_ec (rest : List SsMerge) (r : SsMerge) (k : String)
    (h : ∀ x ∈ rest, (keys x.ec).Nodup) :
    getNat ((rest.foldl combine_result r).ec) k
      = getNat r.ec k + (rest.map fun x => getNat x.ec k).sum := by
  induction rest generalizing r with
  | nil => simp
  | cons r2 rest2 ih =>
    rw [List.foldl_cons, ih (combine_result r r2) (fun x hx => h x (by simp [hx])),
      show combine_result r r2 = r2.ec.foldl combine_step r from rfl,
      foldl_combine_step_ec, weight_eq_getNat r2.ec k (h r2 (by simp)),
      List.map_cons, List.sum_cons]
    omega

/-- After the single-sample merge loop (lines 408-419), the count for
every key equals the sum of that key's counts over all worker results
(whose EC tables, being Python dicts, have unique keys). -/
theorem merged_ec_count_sum_single (results : List SsMerge) (k : String)
    (h : ∀ r ∈ results, (keys r.ec).Nodup) :
    getNat (merge_results results).ec k
      = (results.map fun r => getNat r.ec k).sum := by
  match results with
  | [] => rfl
  | r :: rest =>
    rw [merge_results, foldl_combine_result_ec rest r k
      (fun x hx => h x (by simp [hx])), List.map_cons, List.sum_cons]

@[simp] theorem getDict_nil (ek : String) : getDict ([] : EcCrTable) ek = [] := rfl

theorem getDict_cons (p : String × Dict Nat) (rest : EcCrTable) (ek : String) :
    getDict (p :: rest) ek = if p.1 = ek then p.2 else getDict rest ek := by
  simp only [getDict, getVal?_cons]
  by_cases h : p.1 = ek <;> simp [h]

theorem getDict_append (t t' : EcCrTable) (ek : String) :
    getDict (t ++ t') ek = if hasKey t ek then getDict t ek else getDict t' ek := by
  simp only [getDict, getVal?_append]
  by_cases h : hasKey t ek <;> simp [h]

theorem getDict_eq_nil_of_not_hasKey (t : EcCrTable) (ek : String)
    (h : hasKey t ek = false) : getDict t ek = [] := by
  rw [getDict]
  rcases hv : getVal? t ek with - | v
  · rfl
  · rw [hasKey, hv] at h
    exact absurd h (by simp)

theorem getDict_ecAddMs (t : EcCrTable) (ek ck : String) (c : Nat) (ek' : String) :
    getDict (ecAddMs t ek ck c) ek'
      = if ek' = ek then addCount (getDict t ek) ck c else getDict t ek' := by
  induction t with
  | nil =>
    by_cases he : ek' = ek
    · simp [ecAddMs, getDict_cons, he, addCount]
    · simp [ecAddMs, getDict_cons, he, Ne.symm he]
  | cons p rest ih =>
    by_cases hp : p.1 = ek
    · by_cases he : ek' = ek
      · simp [ecAddMs, hp, getDict_cons, he]
      · have hpe : ¬ p.1 = ek' := fun hh => he (hh.symm.trans hp)
        simp [ecAddMs, hp, getDict_cons, he, hpe, Ne.symm he]
    · by_cases he : p.1 = ek'
      · have hq : ¬ ek' = ek := fun hh => hp (he.trans hh)
        simp [ecAddMs, hp, getDict_cons, he, hq]
      · simp [ecAddMs, hp, getDict_cons, he, ih]

theorem hasKey_setVal_self (d : Dict β) (k : String) (v : β) :
    hasKey (setVal d k v) k = true := by
  simp [hasKey, getVal?_setVal]

@[simp] theorem weight2_nil (ek ck : String) : weight2 [] ek ck = 0 := rfl

theorem weight2_cons (p : String × Dict Nat) (rest : EcCrTable) (ek ck : String) :
    weight2 (p :: rest) ek ck
      = (if p.1 = ek then weight p.2 ck else 0) + weight2 rest ek ck := by
  simp [weight2]

theorem getCr_cons (p : String × Dict Nat) (rest : EcCrTable) (ek ck : String) :
    getCr (p :: rest) ek ck = if p.1 = ek then getNat p.2 ck else getCr rest ek ck := by
  rw [getCr, getDict_cons]
  by_cases h : p.1 = ek
  · rw [if_pos h, if_pos h]
  · rw [if_neg h, if_neg h]
    rfl

theorem weight2_eq_zero_of_not_mem (r : EcCrTable) (ek ck : String)
    (h : ¬ ek ∈ keys r) : weight2 r ek ck = 0 := by
  induction r with
  | nil => rfl
  | cons p rest ih =>
    rw [keys_cons] at h
    rw [weight2_cons, ih (fun hm => h (List.mem_cons.mpr (Or.inr hm))),
      if_neg (fun he : p.1 = ek => h (List.mem_cons.mpr (Or.inl he.symm)))]

theorem weight2_eq_getCr (r : EcCrTable) (ek ck : String)
    (houter : (keys r).Nodup) (hinner : ∀ p ∈ r, (keys p.2).Nodup) :
    weight2 r ek ck = getCr r ek ck := by
  induction r with
  | nil => rfl
  | cons p rest ih =>
    rw [keys_cons, List.nodup_cons] at houter
    rw [weight2_cons, getCr_cons]
    by_cases he : p.1 = ek
    · rw [if_pos he, if_pos he, weight2_eq_zero_of_not_mem rest ek ck (he ▸ houter.1),
        Nat.add_zero, weight_eq_getNat p.2 ck (hinner p (by simp))]
    · rw [if_neg he, if_neg he, ih houter.2 (fun x hx => hinner x (by simp [hx])),
        Nat.zero_add]

theorem adopt_inner_ec (e : String) (m : MsMerge) (q : String × Nat) :
    (adopt_inner e m q).ec = m.ec := by
  rw [adopt_inner]
  by_cases h : hasKey m.CRS q.1 <;> simp [h]

theorem foldl_adopt_inner_ec (l : List (String × Nat)) (e : String) (m : MsMerge) :
    (l.foldl (adopt_inner e) m).ec = m.ec := by
  induction l generalizing m with
  | nil => rfl
  | cons q rest ih => rw [List.foldl_cons, ih, adopt_inner_ec]

theorem adopt_outer_ec (m : MsMerge) (p : String × Dict Nat) :
    (adopt_outer m p).ec = m.ec ++ [p] := by
  rw [adopt_outer, foldl_adopt_inner_ec]

theorem foldl_adopt_outer_ec (r : EcCrTable) (m : MsMerge) :
    (r.foldl adopt_outer m).ec = m.ec ++ r := by
  induction r generalizing m with
  | nil => simp
  | cons p rest ih =>
    rw [List.foldl_cons, ih, adopt_outer_ec, List.append_assoc, List.singleton_append]

/-- Adopting the first result copies its EC table verbatim. -/
theorem adopt_first_ec (r : EcCrTable) : (adopt_first r).ec = r := by
  rw [adopt_first, foldl_adopt_outer_ec, List.nil_append]

theorem combine_ms_inner_ec_eq (ek : String) (m : MsMerge) (q : String × Nat) :
    (combine_ms_inner ek m q).ec
      = if hasKey m.ec ek then ecAddMs m.ec ek q.1 q.2
        else m.ec ++ [(ek, [(q.1, q.2)])] := by
  rw [combine_ms_inner]
  rw [if_pos (hasKey_setVal_self m.CRS q.1 1)]
  by_cases h : hasKey m.ec ek <;> simp [h]

theorem combine_ms_inner_getCr (ek : String) (m : MsMerge) (q : String × Nat)
    (ek' ck' : String) :
    getCr (combine_ms_inner ek m q).ec ek' ck'
      = getCr m.ec ek' ck' + if ek' = ek ∧ ck' = q.1 then q.2 else 0 := by
  rw [combine_ms_inner_ec_eq]
  by_cases h : hasKey m.ec ek
  · rw [if_pos h, getCr, getDict_ecAddMs]
    by_cases he : ek' = ek
    · rw [if_pos he, getNat_addCount, he, getCr]
      by_cases hc : ck' = q.1
      · rw [if_pos hc, if_pos ⟨rfl, hc⟩]
      · rw [if_neg hc, if_neg (fun hh => hc hh.2)]
    · rw [if_neg he, if_neg (fun hh => he hh.1), Nat.add_zero, getCr]
  · rw [if_neg h, getCr, getDict_append]
    have hf : hasKey m.ec ek = false := by simpa using h
    by_cases he : ek' = ek
    · rw [if_neg (by rw [he, hf]; simp), getDict_cons, if_pos he.symm, getNat_cons,
        getCr, getDict_eq_nil_of_not_hasKey m.ec ek' (by rw [he]; exact hf),
        getNat_nil, Nat.zero_add]
      by_cases hc : ck' = q.1
      · rw [if_pos hc.symm, if_pos ⟨he, hc⟩]
      · rw [if_neg (fun hh : q.1 = ck' => hc hh.symm), if_neg (fun hh => hc hh.2)]
    · by_cases hk : hasKey m.ec ek'
      · rw [if_pos hk, if_neg (fun hh => he hh.1), Nat.add_zero, getCr]
      · rw [if_neg (by simpa using hk), getDict_cons,
          if_neg (fun hh : ek = ek' => he hh.symm), getDict_nil, getNat_nil, getCr,
          getDict_eq_nil_of_not_hasKey m.ec ek' (by simpa using hk), getNat_nil,
          if_neg (fun hh => he hh.1)]

theorem foldl_combine_ms_inner_getCr (l : List (String × Nat)) (ek : String)
    (m : MsMerge) (ek' ck' : String) :
    getCr ((l.foldl (combine_ms_inner ek) m).ec) ek' ck'
      = getCr m.ec ek' ck' + if ek' = ek then weight l ck' else 0 := by
  induction l generalizing m with
  | nil => simp
  | cons q rest ih =>
    rw [List.foldl_cons, ih, combine_ms_inner_getCr, weight_cons]
    by_cases he : ek' = ek
    · by_cases hc : ck' = q.1
      · rw [if_pos ⟨he, hc⟩, if_pos he, if_pos he, if_pos hc.symm]
        omega
      · rw [if_neg (fun hh => hc hh.2), if_pos he, if_pos he,
          if_neg (fun hh : q.1 = ck' => hc hh.symm)]
        omega
    · rw [if_neg (fun hh => he hh.1), if_neg he, if_neg he]

theorem foldl_combine_ms_outer_getCr (r : EcCrTable) (m : MsMerge) (ek ck : String) :
    getCr ((r.foldl combine_ms_outer m).ec) ek ck
      = getCr m.ec ek ck + weight2 r ek ck := by
  induction r generalizing m with
  | nil => simp
  | cons p rest ih =>
    rw [List.foldl_cons, ih, weight2_cons,
      show combine_ms_outer m p = p.2.foldl (combine_ms_inner p.1) m from rfl,
      foldl_combine_ms_inner_getCr]
    by_cases he : ek = p.1
    · rw [if_pos he, if_pos he.symm]
      omega
    · rw [if_neg he, if_neg (Ne.symm he), Nat.zero_add]
      omega

/-- After the multi-sample merge loop (lines 490-547), the count stored
for every (EC key, barcode) pair equals the sum of that pair's counts
over all worker results. -/
theorem merged_ec_count_sum_multi (results : List EcCrTable) (ek ck : String)
    (houter : ∀ r ∈ results, (keys r).Nodup)
    (hinner : ∀ r ∈ results, ∀ p ∈ r, (keys p.2).Nodup) :
    getCr (merge_ms results).ec ek ck = (results.map fun r => getCr r ek ck).sum := by
  match results with
  | [] => rfl
  | r :: rest =>
    rw [merge_ms]
    have aux : ∀ (rest2 : List EcCrTable) (m : MsMerge),
        (∀ x ∈ rest2, (keys x).Nodup) →
        (∀ x ∈ rest2, ∀ p ∈ x, (keys p.2).Nodup) →
        getCr ((rest2.foldl combine_ms m).ec) ek ck
          = getCr m.ec ek ck + (rest2.map fun x => getCr x ek ck).sum := by
      intro rest2
      induction rest2 with
      | nil =>
        intro m _ _
        simp
      | cons x rest3 ih =>
        intro m h1 h2
        rw [List.foldl_cons,
          ih _ (fun y hy => h1 y (by simp [hy])) (fun y hy => h2 y (by simp [hy])),
          show combine_ms m x = x.foldl combine_ms_outer m from rfl,
          foldl_combine_ms_outer_getCr,
          weight2_eq_getCr x ek ck (h1 x (by simp)) (h2 x (by simp)),
          List.map_cons, List.sum_cons]
        omega
    rw [aux rest (adopt_first r) (fun y hy => houter y (by simp [hy]))
        (fun y hy => hinner y (by simp [hy])), adopt_first_ec, List.map_cons,
      List.sum_cons]

/-- C2: for every ec_key, the count stored in the merged EC table after
the merge loop of `convert` equals the sum of that key's counts over
all per-worker partial results: in single-sample mode the integer count
per key, in multi-sample mode the count of every (key, cell barcode)
pair, added barcode by barcode.  (Worker EC tables are Python dicts, so
their keys -- outer and inner -- are unique.) -/
theorem C2_merged_counts :
    (∀ (results : List SsMerge) (k : String),
      (∀ r ∈ results, (keys r.ec).Nodup) →
      getNat (merge_results results).ec k
        = (results.map fun r => getNat r.ec k).sum) ∧
    (∀ (results : List EcCrTable) (ek ck : String),
      (∀ r ∈ results, (keys r).Nodup) →
      (∀ r ∈ results, ∀ p ∈ r, (keys p.2).Nodup) →
      getCr (merge_ms results).ec ek ck
        = (results.map fun r => getCr r ek ck).sum) :=
  ⟨merged_ec_count_sum_single, merged_ec_count_sum_multi⟩

/-- Witness for C2 on two concrete worker results in each dialect. -/
theorem C2_merged_counts_witness :
    getNat (merge_results [⟨[("10,2,5", 2), ("7", 1)], [("10,2,5", 0), ("7", 1)]⟩,
        ⟨[("10,2,5", 3)], [("10,2,5", 0)]⟩]).ec "10,2,5" = 5 ∧
    getCr (merge_ms [[("5", [("AAA", 1), ("BBB", 2)])],
        [("5", [("AAA", 4)]), ("7", [("AAA", 1)])]]).ec "5" "AAA" = 5 := by
  constructor
  · rw [C2_merged_counts.1 _ _ (by decide)]
    decide
  · rw [C2_merged_counts.2 _ _ _ (by decide) (by decide)]
    decide

@[simp] theorem totalOf_nil (ck : String) : totalOf [] ck = 0 := rfl

theorem totalOf_cons (p : String × Dict Nat) (rest : EcCrTable) (ck : String) :
    totalOf (p :: rest) ck = getNat p.2 ck + totalOf rest ck := by
  simp [totalOf]

theorem totalOf_append (t t' : EcCrTable) (ck : String) :
    totalOf (t ++ t') ck = totalOf t ck + totalOf t' ck := by
  simp [totalOf]

theorem getVal?_of_mem_nodup (d : Dict β) (k : String) (v : β)
    (hm : (k, v) ∈ d) (hnd : (keys d).Nodup) : getVal? d k = some v := by
  induction d with
  | nil => exact absurd hm (List.not_mem_nil _)
  | cons p rest ih =>
    rw [keys_cons, List.nodup_cons] at hnd
    rw [getVal?_cons]
    rcases List.mem_cons.mp hm with rfl | hm2
    · rw [if_pos rfl]
    · have hne : ¬ p.1 = k := fun he => hnd.1 (he ▸ (by
        exact List.mem_map.mpr ⟨(k, v), hm2, rfl⟩))
      rw [if_neg hne]
      exact ih hm2 hnd.2

theorem totalOf_ecAddMs (t : EcCrTable) (ek ck0 : String) (c : Nat) (ck : String) :
    totalOf (ecAddMs t ek ck0 c) ck = totalOf t ck + if ck = ck0 then c else 0 := by
  induction t with
  | nil =>
    by_cases hc : ck = ck0
    · simp [ecAddMs, totalOf_cons, getNat_cons, hc]
    · simp [ecAddMs, totalOf_cons, getNat_cons, hc, Ne.symm hc]
  | cons p rest ih =>
    rw [ecAddMs]
    by_cases hp : p.1 = ek
    · rw [if_pos (beq_iff_eq.mpr hp), totalOf_cons, totalOf_cons, getNat_addCount]
      omega
    · rw [if_neg (by simp [hp]), totalOf_cons, totalOf_cons, ih]
      omega

theorem adopt_inner_cr_totals (e : String) (m : MsMerge) (q : String × Nat) :
    (adopt_inner e m q).cr_totals = addCount m.cr_totals q.1 q.2 := by
  rw [adopt_inner]
  by_cases h : hasKey m.CRS q.1 <;> simp [h]

theorem foldl_adopt_inner_cr_totals (l : List (String × Nat)) (e : String)
    (m : MsMerge) (ck : String) :
    getNat ((l.foldl (adopt_inner e) m).cr_totals) ck
      = getNat m.cr_totals ck + weight l ck := by
  induction l generalizing m with
  | nil => simp
  | cons q rest ih =>
    rw [List.foldl_cons, ih, adopt_inner_cr_totals, getNat_addCount, weight_cons]
    by_cases hc : ck = q.1
    · rw [if_pos hc, if_pos hc.symm]
      omega
    · rw [if_neg hc, if_neg (Ne.symm hc)]
      omega

theorem combine_ms_inner_cr_totals (ek : String) (m : MsMerge) (q : String × Nat) :
    (combine_ms_inner ek m q).cr_totals = addCount m.cr_totals q.1 q.2 := by
  rw [combine_ms_inner, if_pos (hasKey_setVal_self m.CRS q.1 1)]
  by_cases h : hasKey m.ec ek <;> simp [h]

theorem totalOf_combine_ms_inner (ek : String) (m : MsMerge) (q : String × Nat)
    (ck : String) :
    totalOf (combine_ms_inner ek m q).ec ck
      = totalOf m.ec ck + if ck = q.1 then q.2 else 0 := by
  rw [combine_ms_inner_ec_eq]
  by_cases h : hasKey m.ec ek
  · rw [if_pos h, totalOf_ecAddMs]
  · rw [if_neg h, totalOf_append, totalOf_cons, totalOf_nil, getNat_cons]
    by_cases hc : ck = q.1
    · rw [if_pos hc.symm, if_pos hc]
      omega
    · rw [if_neg (Ne.symm hc), if_neg hc, getNat_nil]

/-- The merge-loop invariant: the stored barcode total equals the
barcode's summed count over the merged EC table.  (The first result's
inner dicts are Python dicts, hence duplicate-free.) -/
theorem merge_ms_cr_totals (results : List EcCrTable)
    (hinner : ∀ r ∈ results, ∀ p ∈ r, (keys p.2).Nodup) (ck : String) :
    getNat (merge_ms results).cr_totals ck = totalOf (merge_ms results).ec ck := by
  match results with
  | [] => rfl
  | r :: rest =>
    rw [merge_ms]
    have hadopt : ∀ ck2, getNat (adopt_first r).cr_totals ck2
        = totalOf (adopt_first r).ec ck2 := by
      rw [adopt_first]
      have aux : ∀ (l : EcCrTable) (m : MsMerge),
          (∀ p ∈ l, (keys p.2).Nodup) →
          (∀ ck2, getNat m.cr_totals ck2 = totalOf m.ec ck2) →
          ∀ ck2, getNat ((l.foldl adopt_outer m).cr_totals) ck2
            = totalOf ((l.foldl adopt_outer m).ec) ck2 := by
        intro l
        induction l with
        | nil =>
          intro m _ hm
          exact hm
        | cons p rest2 ih =>
          intro m hl hm
          rw [List.foldl_cons]
          refine ih _ (fun x hx => hl x (by simp [hx])) ?_
          intro ck2
          rw [show adopt_outer m p = p.2.foldl (adopt_inner p.1)
              { m with ec := m.ec ++ [p],
                       ec_idx := setVal m.ec_idx p.1 m.ec_idx.length } from rfl,
            foldl_adopt_inner_cr_totals, foldl_adopt_inner_ec]
          show getNat m.cr_totals ck2 + weight p.2 ck2 = totalOf (m.ec ++ [p]) ck2
          rw [totalOf_append, totalOf_cons, totalOf_nil, hm ck2,
            weight_eq_getNat p.2 ck2 (hl p (by simp))]
          omega
      exact aux r ⟨[], [], [], [], []⟩ (fun p hp => hinner r (by simp) p hp)
        (fun _ => rfl)
    have hcomb : ∀ (l : List EcCrTable) (m : MsMerge),
        (∀ ck2, getNat m.cr_totals ck2 = totalOf m.ec ck2) →
        ∀ ck2, getNat ((l.foldl combine_ms m).cr_totals) ck2
          = totalOf ((l.foldl combine_ms m).ec) ck2 := by
      intro l
      induction l with
      | nil =>
        intro m hm
        exact hm
      | cons x rest2 ih =>
        intro m hm
        rw [List.foldl_cons]
        refine ih _ ?_
        intro ck2
        rw [show combine_ms m x = x.foldl combine_ms_outer m from rfl]
        have aux2 : ∀ (x2 : EcCrTable) (m2 : MsMerge),
            (∀ ck3, getNat m2.cr_totals ck3 = totalOf m2.ec ck3) →
            ∀ ck3, getNat ((x2.foldl combine_ms_outer m2).cr_totals) ck3
              = totalOf ((x2.foldl combine_ms_outer m2).ec) ck3 := by
          intro x2
          induction x2 with
          | nil =>
            intro m2 hm2
            exact hm2
          | cons p rest3 ih2 =>
            intro m2 hm2
            rw [List.foldl_cons]
            refine ih2 _ ?_
            intro ck3
            rw [show combine_ms_outer m2 p = p.2.foldl (combine_ms_inner p.1) m2
                from rfl]
            have aux3 : ∀ (l3 : List (String × Nat)) (m3 : MsMerge),
                (∀ ck4, getNat m3.cr_totals ck4 = totalOf m3.ec ck4) →
                ∀ ck4, getNat ((l3.foldl (combine_ms_inner p.1) m3).cr_totals) ck4
                  = totalOf ((l3.foldl (combine_ms_inner p.1) m3).ec) ck4 := by
              intro l3
              induction l3 with
              | nil =>
                intro m3 hm3
                exact hm3
              | cons q rest4 ih3 =>
                intro m3 hm3
                rw [List.foldl_cons]
                refine ih3 _ ?_
                intro ck4
                rw [combine_ms_inner_cr_totals, getNat_addCount,
                  totalOf_combine_ms_inner, hm3 ck4]
            exact aux3 p.2 m2 hm2 ck3
        exact aux2 x m hm ck2
    exact hcomb rest (adopt_first r) hadopt ck

theorem setVal_eq_append_of_not_hasKey (d : Dict β) (k : String) (v : β)
    (h : hasKey d k = false) : setVal d k v = d ++ [(k, v)] := by
  induction d with
  | nil => rfl
  | cons p rest ih =>
    simp only [hasKey_cons, Bool.or_eq_false_iff] at h
    rw [setVal, if_neg (by simp [h.1]), List.cons_append, ih h.2]

/-- Specification of the CRS rebuild fold (lines 586-591): with
duplicate-free totals, the surviving barcodes are kept in their
original order and re-indexed densely. -/
theorem crs_rebuild_fold (minimum_count : Int) (l : List (String × Nat)) :
    ∀ acc : Dict Nat,
    (keys acc ++ l.map Prod.fst).Nodup →
    acc.map Prod.snd = List.range acc.length →
    keys (l.foldl (crs_rebuild_step minimum_count) acc)
        = keys acc ++ (l.filter fun p => (p.2 : Int) ≥ minimum_count).map Prod.fst ∧
    (l.foldl (crs_rebuild_step minimum_count) acc).map Prod.snd
        = List.range (l.foldl (crs_rebuild_step minimum_count) acc).length := by
  induction l with
  | nil =>
    intro acc _ hv
    simp [hv]
  | cons p rest ih =>
    intro acc hnd hv
    rw [List.foldl_cons]
    by_cases hp : (p.2 : Int) ≥ minimum_count
    · have hfresh : ¬ p.1 ∈ keys acc := by
        intro hmem
        exact (List.disjoint_of_nodup_append hnd) hmem (by simp)
      have hk : hasKey acc p.1 = false := by
        rcases hb : hasKey acc p.1 with - | -
        · rfl
        · exact absurd ((hasKey_iff_mem_keys acc p.1).mp hb) hfresh
      rw [crs_rebuild_step, if_pos hp, if_neg (by simp [hk]),
        setVal_eq_append_of_not_hasKey acc p.1 acc.length hk]
      have hnd2 : (keys (acc ++ [(p.1, acc.length)]) ++ rest.map Prod.fst).Nodup := by
        rw [keys_append, List.append_assoc]
        simp only [keys_cons, keys_nil, List.singleton_append]
        simpa using hnd
      have hv2 : (acc ++ [(p.1, acc.length)]).map Prod.snd
          = List.range (acc ++ [(p.1, acc.length)]).length := by
        rw [List.map_append, List.length_append, hv]
        simp [List.range_succ]
      obtain ⟨ha, hb⟩ := ih _ hnd2 hv2
      refine ⟨?_, hb⟩
      rw [ha, keys_append, List.filter_cons, if_pos (by simpa using hp)]
      simp [keys]
    · rw [crs_rebuild_step, if_neg hp]
      have hnd2 : (keys acc ++ rest.map Prod.fst).Nodup := by
        refine List.Nodup.sublist ?_ hnd
        refine List.Sublist.append_left ?_ _
        simp only [List.map_cons]
        exact List.sublist_cons_self p.1 (rest.map Prod.fst)
      obtain ⟨ha, hb⟩ := ih acc hnd2 hv
      refine ⟨?_, hb⟩
      rw [ha, List.filter_cons, if_neg (by simpa using hp)]

/-- Every barcode kept by the per-EC inner loop survives the CRS
filter. -/
theorem filter_entry_keys_mem (CRS crs : Dict Nat) :
    ∀ k ∈ keys (filter_entry CRS crs).1, hasKey CRS k = true := by
  rw [filter_entry]
  have aux : ∀ (l : List (String × Nat)) (et : Dict Nat × Nat),
      (∀ k ∈ keys et.1, hasKey CRS k = true) →
      ∀ k ∈ keys ((l.foldl (filter_entry_step CRS crs) et).1), hasKey CRS k = true := by
    intro l
    induction l with
    | nil =>
      intro et h
      exact h
    | cons q rest ih =>
      intro et h
      rw [List.foldl_cons]
      refine ih _ ?_
      intro k hk
      by_cases hc : hasKey CRS q.1
      · simp only [filter_entry_step, hc, if_true] at hk
        rw [keys_setVal] at hk
        by_cases he : hasKey et.1 q.1
        · rw [if_pos he] at hk
          exact h k hk
        · rw [if_neg (by simpa using he)] at hk
          rcases List.mem_append.mp hk with hk1 | hk2
          · exact h k hk1
          · rw [List.mem_singleton] at hk2
            subst hk2
            exact hc
      · simp only [filter_entry_step, if_neg hc] at hk
        exact h k hk
  exact aux crs ([], 0) (fun k hk => absurd hk (List.not_mem_nil k))

/-- Specification of the EC-table rebuild fold (lines 594-614): kept
ECs appear in their original order with their filtered barcode dicts,
and the new index table follows them densely. -/
theorem new_ecs_fold (CRS : Dict Nat) (l : EcCrTable) :
    ∀ acc : EcCrTable × Dict Nat × Dict Nat,
    (keys acc.1 ++ l.map Prod.fst).Nodup →
    keys acc.2.1 = keys acc.1 →
    acc.2.1.map Prod.snd = List.range acc.2.1.length →
    acc.2.1.length = acc.1.length →
    (l.foldl (new_ecs_step CRS) acc).1
        = acc.1 ++ ((l.filter fun p => 0 < (filter_entry CRS p.2).1.length).map
            fun p => (p.1, (filter_entry CRS p.2).1)) ∧
    keys (l.foldl (new_ecs_step CRS) acc).2.1
        = keys (l.foldl (new_ecs_step CRS) acc).1 ∧
    (l.foldl (new_ecs_step CRS) acc).2.1.map Prod.snd
        = List.range (l.foldl (new_ecs_step CRS) acc).2.1.length ∧
    (l.foldl (new_ecs_step CRS) acc).2.1.length
        = (l.foldl (new_ecs_step CRS) acc).1.length := by
  induction l with
  | nil =>
    intro acc _ h1 h2 h3
    refine ⟨by simp, h1, h2, h3⟩
  | cons p rest ih =>
    intro acc hnd h1 h2 h3
    rw [List.foldl_cons]
    by_cases hp : 0 < (filter_entry CRS p.2).1.length
    · have hfresh : ¬ p.1 ∈ keys acc.1 := fun hmem =>
        (List.disjoint_of_nodup_append hnd) hmem (by simp)
      have hkk : hasKey acc.2.1 p.1 = false := by
        rcases hb : hasKey acc.2.1 p.1 with - | -
        · rfl
        · exact absurd (h1 ▸ (hasKey_iff_mem_keys acc.2.1 p.1).mp hb) hfresh
      have hstep : new_ecs_step CRS acc p
          = (acc.1 ++ [(p.1, (filter_entry CRS p.2).1)],
             setVal acc.2.1 p.1 acc.2.1.length,
             setVal acc.2.2 p.1 (filter_entry CRS p.2).2) := by
        rw [new_ecs_step, if_pos hp]
      rw [hstep, setVal_eq_append_of_not_hasKey acc.2.1 p.1 acc.2.1.length hkk]
      have hnd2 : (keys (acc.1 ++ [(p.1, (filter_entry CRS p.2).1)])
          ++ rest.map Prod.fst).Nodup := by
        rw [keys_append, List.append_assoc]
        simp only [keys_cons, keys_nil, List.singleton_append]
        simpa using hnd
      have h1b : keys (acc.2.1 ++ [(p.1, acc.2.1.length)])
          = keys (acc.1 ++ [(p.1, (filter_entry CRS p.2).1)]) := by
        rw [keys_append, keys_append, h1]
        simp [keys]
      have h2b : (acc.2.1 ++ [(p.1, acc.2.1.length)]).map Prod.snd
          = List.range (acc.2.1 ++ [(p.1, acc.2.1.length)]).length := by
        rw [List.map_append, List.length_append, h2]
        simp [List.range_succ]
      have h3b : (acc.2.1 ++ [(p.1, acc.2.1.length)]).length
          = (acc.1 ++ [(p.1, (filter_entry CRS p.2).1)]).length := by
        simp [h3]
      obtain ⟨ha, hb, hc, hd⟩ := ih
        (acc.1 ++ [(p.1, (filter_entry CRS p.2).1)],
          acc.2.1 ++ [(p.1, acc.2.1.length)],
          setVal acc.2.2 p.1 (filter_entry CRS p.2).2) hnd2 h1b h2b h3b
      refine ⟨?_, hb, hc, hd⟩
      rw [ha, List.filter_cons, if_pos (by simpa using hp), List.map_cons,
        List.append_assoc, List.singleton_append]
    · have hstep : new_ecs_step CRS acc p = acc := by
        rw [new_ecs_step, if_neg hp]
      rw [hstep]
      have hnd2 : (keys acc.1 ++ rest.map Prod.fst).Nodup := by
        refine List.Nodup.sublist ?_ hnd
        refine List.Sublist.append_left ?_ _
        simp only [List.map_cons]
        exact List.sublist_cons_self p.1 (rest.map Prod.fst)
      obtain ⟨ha, hb, hc, hd⟩ := ih acc hnd2 h1 h2 h3
      refine ⟨?_, hb, hc, hd⟩
      rw [ha, List.filter_cons, if_neg (by simpa using hp)]

theorem keys_ecAddMs (t : EcCrTable) (ek ck : String) (c : Nat) :
    keys (ecAddMs t ek ck c) = if hasKey t ek then keys t else keys t ++ [ek] := by
  induction t with
  | nil => simp [ecAddMs]
  | cons p rest ih =>
    simp only [ecAddMs, hasKey_cons]
    by_cases h : p.1 = ek
    · rw [if_pos (beq_iff_eq.mpr h), if_pos (by simp [h]), keys_cons, keys_cons, h]
    · rw [if_neg (by simp [h]), keys_cons, ih]
      by_cases h' : hasKey rest ek
      · rw [if_pos h', if_pos (by simp [h, h']), keys_cons]
      · rw [if_neg (by simpa using h'), if_neg (by simp [h, h']), keys_cons,
          List.cons_append]

/-- The merged barcode-totals table has duplicate-free keys. -/
theorem merge_ms_cr_totals_nodup (results : List EcCrTable) :
    (keys (merge_ms results).cr_totals).Nodup := by
  have hstep1 : ∀ (e : String) (m : MsMerge) (q : String × Nat),
      (keys m.cr_totals).Nodup → (keys (adopt_inner e m q).cr_totals).Nodup := by
    intro e m q h
    rw [adopt_inner_cr_totals]
    exact nodup_keys_addCount _ _ _ h
  have hstep2 : ∀ (e : String) (m : MsMerge) (q : String × Nat),
      (keys m.cr_totals).Nodup → (keys (combine_ms_inner e m q).cr_totals).Nodup := by
    intro e m q h
    rw [combine_ms_inner_cr_totals]
    exact nodup_keys_addCount _ _ _ h
  have hfold1 : ∀ (e : String) (l : List (String × Nat)) (m : MsMerge),
      (keys m.cr_totals).Nodup →
      (keys ((l.foldl (adopt_inner e) m)).cr_totals).Nodup := by
    intro e l
    induction l with
    | nil => exact fun m h => h
    | cons q rest ih =>
      intro m h
      rw [List.foldl_cons]
      exact ih _ (hstep1 e m q h)
  have hfold2 : ∀ (e : String) (l : List (String × Nat)) (m : MsMerge),
      (keys m.cr_totals).Nodup →
      (keys ((l.foldl (combine_ms_inner e) m)).cr_totals).Nodup := by
    intro e l
    induction l with
    | nil => exact fun m h => h
    | cons q rest ih =>
      intro m h
      rw [List.foldl_cons]
      exact ih _ (hstep2 e m q h)
  have houter1 : ∀ (r : EcCrTable) (m : MsMerge),
      (keys m.cr_totals).Nodup → (keys ((r.foldl adopt_outer m)).cr_totals).Nodup := by
    intro r
    induction r with
    | nil => exact fun m h => h
    | cons p rest ih =>
      intro m h
      rw [List.foldl_cons]
      exact ih _ (hfold1 p.1 p.2 _ h)
  have houter2 : ∀ (r : EcCrTable) (m : MsMerge),
      (keys m.cr_totals).Nodup →
      (keys ((r.foldl combine_ms_outer m)).cr_totals).Nodup := by
    intro r
    induction r with
    | nil => exact fun m h => h
    | cons p rest ih =>
      intro m h
      rw [List.foldl_cons]
      exact ih _ (hfold2 p.1 p.2 m h)
  have hall : ∀ (rs : List EcCrTable) (m : MsMerge),
      (keys m.cr_totals).Nodup → (keys ((rs.foldl combine_ms m)).cr_totals).Nodup := by
    intro rs
    induction rs with
    | nil => exact fun m h => h
    | cons x rest ih =>
      intro m h
      rw [List.foldl_cons]
      exact ih _ (houter2 x m h)
  match results with
  | [] => exact List.nodup_nil
  | r :: rest =>
    rw [merge_ms]
    refine hall rest (adopt_first r) ?_
    rw [adopt_first]
    exact houter1 r ⟨[], [], [], [], []⟩ List.nodup_nil

/-- The merged EC table has duplicate-free outer keys when every worker
result does. -/
theorem merge_ms_ec_nodup (results : List EcCrTable)
    (houter : ∀ r ∈ results, (keys r).Nodup) :
    (keys (merge_ms results).ec).Nodup := by
  have hstep : ∀ (e : String) (m : MsMerge) (q : String × Nat),
      (keys m.ec).Nodup → (keys (combine_ms_inner e m q).ec).Nodup := by
    intro e m q h
    rw [combine_ms_inner_ec_eq]
    by_cases hk : hasKey m.ec e
    · rw [if_pos hk, keys_ecAddMs, if_pos hk]
      exact h
    · rw [if_neg hk, keys_append]
      simp only [keys_cons, keys_nil]
      refine List.Nodup.append h (List.nodup_singleton e) ?_
      intro a ha hb
      rw [List.mem_singleton] at hb
      subst hb
      exact hk ((hasKey_iff_mem_keys m.ec a).mpr ha)
  have hfold : ∀ (e : String) (l : List (String × Nat)) (m : MsMerge),
      (keys m.ec).Nodup → (keys ((l.foldl (combine_ms_inner e) m)).ec).Nodup := by
    intro e l
    induction l with
    | nil => exact fun m h => h
    | cons q rest ih =>
      intro m h
      rw [List.foldl_cons]
      exact ih _ (hstep e m q h)
  have houter2 : ∀ (r : EcCrTable) (m : MsMerge),
      (keys m.ec).Nodup → (keys ((r.foldl combine_ms_outer m)).ec).Nodup := by
    intro r
    induction r with
    | nil => exact fun m h => h
    | cons p rest ih =>
      intro m h
      rw [List.foldl_cons]
      exact ih _ (hfold p.1 p.2 m h)
  have hall : ∀ (rs : List EcCrTable) (m : MsMerge),
      (keys m.ec).Nodup → (keys ((rs.foldl combine_ms m)).ec).Nodup := by
    intro rs
    induction rs with
    | nil => exact fun m h => h
    | cons x rest ih =>
      intro m h
      rw [List.foldl_cons]
      exact ih _ (houter2 x m h)
  match results with
  | [] => exact List.nodup_nil
  | r :: rest =>
    rw [merge_ms]
    refine hall rest (adopt_first r) ?_
    rw [adopt_first_ec]
    exact houter r (by simp)

/-- C4: with a positive `minimum_count`, after the filtering step of
multi-sample `convert`: every barcode remaining in the CRS table has
total count over all ECs at least `minimum_count`; every EC remaining
in `final.ec` is nonempty and holds only surviving barcodes (ECs left
empty are dropped); and the surviving barcodes and ECs are re-indexed
densely (0, 1, 2, ...) in their original insertion order. -/
theorem C4_min_count_filter (minimum_count : Int) (results : List EcCrTable)
    (_hmin : 0 < minimum_count)
    (houter : ∀ r ∈ results, (keys r).Nodup)
    (hinner : ∀ r ∈ results, ∀ p ∈ r, (keys p.2).Nodup) :
    (∀ cr ∈ keys (filter_min minimum_count (merge_ms results).cr_totals
        (merge_ms results).ec).CRS,
      minimum_count ≤ (totalOf (merge_ms results).ec cr : Int)) ∧
    (∀ p ∈ (filter_min minimum_count (merge_ms results).cr_totals
        (merge_ms results).ec).ec,
      p.2 ≠ [] ∧ ∀ q ∈ p.2, q.1 ∈ keys (filter_min minimum_count
        (merge_ms results).cr_totals (merge_ms results).ec).CRS) ∧
    (keys (filter_min minimum_count (merge_ms results).cr_totals
        (merge_ms results).ec).CRS).Sublist (keys (merge_ms results).cr_totals) ∧
    ((filter_min minimum_count (merge_ms results).cr_totals
        (merge_ms results).ec).CRS.map Prod.snd
      = List.range (filter_min minimum_count (merge_ms results).cr_totals
        (merge_ms results).ec).CRS.length) ∧
    (keys (filter_min minimum_count (merge_ms results).cr_totals
        (merge_ms results).ec).ec).Sublist (keys (merge_ms results).ec) ∧
    (keys (filter_min minimum_count (merge_ms results).cr_totals
        (merge_ms results).ec).ec_idx
      = keys (filter_min minimum_count (merge_ms results).cr_totals
        (merge_ms results).ec).ec) ∧
    ((filter_min minimum_count (merge_ms results).cr_totals
        (merge_ms results).ec).ec_idx.map Prod.snd
      = List.range (filter_min minimum_count (merge_ms results).cr_totals
        (merge_ms results).ec).ec_idx.length) := by
  have hcrtnd : (keys (merge_ms results).cr_totals).Nodup :=
    merge_ms_cr_totals_nodup results
  have hecnd : (keys (merge_ms results).ec).Nodup := merge_ms_ec_nodup results houter
  have hinv : ∀ ck, getNat (merge_ms results).cr_totals ck
      = totalOf (merge_ms results).ec ck :=
    merge_ms_cr_totals results hinner
  obtain ⟨hCk, hCv⟩ := crs_rebuild_fold minimum_count (merge_ms results).cr_totals []
    (by simpa using hcrtnd) (by simp)
  obtain ⟨hE1, hE2, hE3, hE4⟩ := new_ecs_fold
    ((merge_ms results).cr_totals.foldl (crs_rebuild_step minimum_count) [])
    (merge_ms results).ec ([], [], []) (by simpa using hecnd) rfl rfl rfl
  rw [keys_nil, List.nil_append] at hCk
  rw [List.nil_append] at hE1
  refine ⟨?_, ?_, ?_, hCv, ?_, hE2, hE3⟩
  · intro cr hcr
    rw [show keys (filter_min minimum_count (merge_ms results).cr_totals
        (merge_ms results).ec).CRS
      = keys ((merge_ms results).cr_totals.foldl (crs_rebuild_step minimum_count) [])
      from rfl, hCk] at hcr
    obtain ⟨p, hpmem, hpeq⟩ := List.mem_map.mp hcr
    obtain ⟨hpin, hpd⟩ := List.mem_filter.mp hpmem
    have hval : getVal? (merge_ms results).cr_totals p.1 = some p.2 :=
      getVal?_of_mem_nodup (merge_ms results).cr_totals p.1 p.2 hpin hcrtnd
    have hget : getNat (merge_ms results).cr_totals cr = p.2 := by
      rw [← hpeq, getNat, hval]
      rfl
    have := hinv cr
    rw [hget] at this
    rw [← this]
    exact of_decide_eq_true hpd
  · intro p hp
    rw [show (filter_min minimum_count (merge_ms results).cr_totals
        (merge_ms results).ec).ec
      = ((merge_ms results).ec.foldl (new_ecs_step
          ((merge_ms results).cr_totals.foldl (crs_rebuild_step minimum_count) []))
        ([], [], [])).1 from rfl, hE1] at hp
    obtain ⟨p0, hp0mem, hp0eq⟩ := List.mem_map.mp hp
    obtain ⟨hp0in, hp0d⟩ := List.mem_filter.mp hp0mem
    subst hp0eq
    constructor
    · have hlen : 0 < (filter_entry ((merge_ms results).cr_totals.foldl
          (crs_rebuild_step minimum_count) []) p0.2).1.length := of_decide_eq_true hp0d
      intro hemp
      rw [show ((p0.1, (filter_entry ((merge_ms results).cr_totals.foldl
          (crs_rebuild_step minimum_count) []) p0.2).1)).2
        = (filter_entry ((merge_ms results).cr_totals.foldl
          (crs_rebuild_step minimum_count) []) p0.2).1 from rfl] at hemp
      rw [hemp] at hlen
      exact absurd hlen (by simp)
    · intro q hq
      have hqk : q.1 ∈ keys (filter_entry ((merge_ms results).cr_totals.foldl
          (crs_rebuild_step minimum_count) []) p0.2).1 :=
        List.mem_map.mpr ⟨q, hq, rfl⟩
      have := filter_entry_keys_mem ((merge_ms results).cr_totals.foldl
        (crs_rebuild_step minimum_count) []) p0.2 q.1 hqk
      exact (hasKey_iff_mem_keys _ q.1).mp this
  · rw [show keys (filter_min minimum_count (merge_ms results).cr_totals
        (merge_ms results).ec).CRS
      = keys ((merge_ms results).cr_totals.foldl (crs_rebuild_step minimum_count) [])
      from rfl, hCk]
    exact List.Sublist.map Prod.fst (List.filter_sublist _)
  · rw [show (filter_min minimum_count (merge_ms results).cr_totals
        (merge_ms results).ec).ec
      = ((merge_ms results).ec.foldl (new_ecs_step
          ((merge_ms results).cr_totals.foldl (crs_rebuild_step minimum_count) []))
        ([], [], [])).1 from rfl, hE1]
    rw [show keys (((merge_ms results).ec.filter fun p =>
        0 < (filter_entry ((merge_ms results).cr_totals.foldl
          (crs_rebuild_step minimum_count) []) p.2).1.length).map
        fun p => (p.1, (filter_entry ((merge_ms results).cr_totals.foldl
          (crs_rebuild_step minimum_count) []) p.2).1))
      = ((merge_ms results).ec.filter fun p =>
        0 < (filter_entry ((merge_ms results).cr_totals.foldl
          (crs_rebuild_step minimum_count) []) p.2).1.length).map Prod.fst from by
        rw [keys, List.map_map]
        rfl]
    exact List.Sublist.map Prod.fst (List.filter_sublist _)

/-- Witness for C4 on two concrete worker results with
`minimum_count = 3`: barcode AAA (total 4) survives with dense index 0,
barcode BBB (total 2) is dropped, EC "5" survives re-indexed to 0 and
EC "7" (only BBB) is dropped. -/
theorem C4_min_count_filter_witness :
    (∀ cr ∈ keys (filter_min 3 (merge_ms [[("5", [("AAA", 2), ("BBB", 1)])],
        [("5", [("AAA", 2)]), ("7", [("BBB", 1)])]]).cr_totals
        (merge_ms [[("5", [("AAA", 2), ("BBB", 1)])],
        [("5", [("AAA", 2)]), ("7", [("BBB", 1)])]]).ec).CRS,
      (3 : Int) ≤ (totalOf (merge_ms [[("5", [("AAA", 2), ("BBB", 1)])],
        [("5", [("AAA", 2)]), ("7", [("BBB", 1)])]]).ec cr : Int)) ∧
    (filter_min 3 (merge_ms [[("5", [("AAA", 2), ("BBB", 1)])],
        [("5", [("AAA", 2)]), ("7", [("BBB", 1)])]]).cr_totals
      (merge_ms [[("5", [("AAA", 2), ("BBB", 1)])],
        [("5", [("AAA", 2)]), ("7", [("BBB", 1)])]]).ec).CRS = [("AAA", 0)] ∧
    (filter_min 3 (merge_ms [[("5", [("AAA", 2), ("BBB", 1)])],
        [("5", [("AAA", 2)]), ("7", [("BBB", 1)])]]).cr_totals
      (merge_ms [[("5", [("AAA", 2), ("BBB", 1)])],
        [("5", [("AAA", 2)]), ("7", [("BBB", 1)])]]).ec).ec
      = [("5", [("AAA", 4)])] ∧
    (filter_min 3 (merge_ms [[("5", [("AAA", 2), ("BBB", 1)])],
        [("5", [("AAA", 2)]), ("7", [("BBB", 1)])]]).cr_totals
      (merge_ms [[("5", [("AAA", 2), ("BBB", 1)])],
        [("5", [("AAA", 2)]), ("7", [("BBB", 1)])]]).ec).ec_idx = [("5", 0)] := by
  refine ⟨(C4_min_count_filter 3 [[("5", [("AAA", 2), ("BBB", 1)])],
    [("5", [("AAA", 2)]), ("7", [("BBB", 1)])]] (by decide) (by decide) (by decide)).1,
    by decide, by decide, by decide⟩

/-! ## Claim C9: v1 mapping-section count and triples -/

/-- The duplicate-free main-target list built by `ec_main_targets` when
every tid of the key is known. -/
theorem ec_main_targets_ok (tmap : Dict String) (k : String)
    (h : ∀ idx ∈ pySplitComma k, (getVal? tmap idx).isSome = true) :
    ec_main_targets tmap k
      = .ok (((pySplitComma k).filterMap (getVal? tmap)).foldl appendAbsent []) := by
  rw [ec_main_targets]
  have aux : ∀ (l : List String) (acc : List String),
      (∀ idx ∈ l, (getVal? tmap idx).isSome = true) →
      (l.foldlM (fun acc2 idx =>
          match getVal? tmap idx with
          | none => Except.error "KeyError"
          | some mt => Except.ok (appendAbsent acc2 mt)) acc : Except String _)
        = .ok ((l.filterMap (getVal? tmap)).foldl appendAbsent acc) := by
    intro l
    induction l with
    | nil =>
      intro acc _
      rfl
    | cons idx rest ih =>
      intro acc hl
      obtain ⟨mt, hmt⟩ := Option.isSome_iff_exists.mp (hl idx (by simp))
      rw [List.filterMap_cons]
      simp only [List.foldlM_cons, hmt]
      exact ih (appendAbsent acc mt) (fun x hx => hl x (by simp [hx]))
  exact aux (pySplitComma k) [] h

/-- Deduplicated length equals the number of distinct elements. -/
theorem foldl_appendAbsent_length (l : List String) :
    (l.foldl appendAbsent []).length = l.toFinset.card := by
  have hnd := foldl_appendAbsent_nodup l [] List.nodup_nil
  have hfs := foldl_appendAbsent_toFinset l []
  rw [List.toFinset_nil, Finset.empty_union] at hfs
  rw [← hfs, List.toFinset_card_of_nodup hnd]

/-- C9: in v1 serialization, the mapping-section count written by the
first pass equals the sum over all ECs of the number of distinct main
targets referenced by the EC's tids, and the second pass then writes
exactly one `(ec_idx, main_target_idx, haplotype_bitmask)` triple per
(EC, distinct main target) pair, iterating ECs in insertion order. -/
theorem C9_mapping_section (ec : Dict Nat) (ec_idx : Dict Nat)
    (main_targets : Dict Nat) (tmap : Dict String) (haplotypes : List String)
    (gettid : String → Int)
    (h1 : ∀ k ∈ keys ec, ∀ idx ∈ pySplitComma k, (getVal? tmap idx).isSome = true)
    (h2 : ∀ k ∈ keys ec, (getVal? ec_idx k).isSome = true)
    (h3 : ∀ k ∈ keys ec, ∀ mt ∈ (pySplitComma k).filterMap (getVal? tmap),
        (getVal? main_targets mt).isSome = true) :
    ∃ n ts, mapping_counter ec tmap = .ok n ∧
      mapping_triples ec ec_idx main_targets tmap haplotypes gettid = .ok ts ∧
      n = (ec.map fun p =>
        ((pySplitComma p.1).filterMap (getVal? tmap)).toFinset.card).sum ∧
      ts.length = n ∧
      ts = ec.flatMap (fun p =>
        (((pySplitComma p.1).filterMap (getVal? tmap)).foldl appendAbsent []).map
          fun mt => ((getVal? ec_idx p.1).getD 0, (getVal? main_targets mt).getD 0,
            list_to_int (haplotype_bits gettid (pySplitComma p.1) haplotypes mt))) ∧
      ∀ p ∈ ec,
        (((pySplitComma p.1).filterMap (getVal? tmap)).foldl appendAbsent []).Nodup ∧
        ∀ mt, (mt ∈ ((pySplitComma p.1).filterMap (getVal? tmap)).foldl appendAbsent []
          ↔ ∃ idx ∈ pySplitComma p.1, getVal? tmap idx = some mt) := by
  have hcounter : ∀ (l : Dict Nat) (c : Nat),
      (∀ k ∈ keys l, ∀ idx ∈ pySplitComma k, (getVal? tmap idx).isSome = true) →
      (l.foldlM (fun c2 p => do
          let mts ← ec_main_targets tmap p.1
          pure (c2 + mts.length)) c : Except String Nat)
        = .ok (c + (l.map fun p =>
            ((pySplitComma p.1).filterMap (getVal? tmap)).toFinset.card).sum) := by
    intro l
    induction l with
    | nil =>
      intro c _
      simp
      rfl
    | cons p rest ih =>
      intro c hl
      simp only [List.foldlM_cons,
        ec_main_targets_ok tmap p.1 (hl p.1 (by simp))]
      show (rest.foldlM _ (c + _) : Except String Nat) = _
      rw [ih _ (fun k hk => hl k (by rw [keys_cons]; exact List.mem_cons.mpr (Or.inr hk))),
        foldl_appendAbsent_length, List.map_cons, List.sum_cons]
      rw [Nat.add_assoc]
  have htriple_inner : ∀ (k : String) (mts : List String) (ts : List (Nat × Nat × Nat)),
      (getVal? ec_idx k).isSome = true →
      (∀ mt ∈ mts, (getVal? main_targets mt).isSome = true) →
      (mts.foldlM (fun ts2 mt =>
          match getVal? ec_idx k, getVal? main_targets mt with
          | some ei, some mi =>
            Except.ok (ts2 ++ [(ei, mi, list_to_int (haplotype_bits gettid
              (pySplitComma k) haplotypes mt))])
          | _, _ => Except.error "KeyError") ts : Except String _)
        = .ok (ts ++ mts.map fun mt =>
            ((getVal? ec_idx k).getD 0, (getVal? main_targets mt).getD 0,
              list_to_int (haplotype_bits gettid (pySplitComma k) haplotypes mt))) := by
    intro k mts
    induction mts with
    | nil =>
      intro ts _ _
      simp
      rfl
    | cons mt rest ih =>
      intro ts hei hmts
      obtain ⟨ei, hei2⟩ := Option.isSome_iff_exists.mp hei
      obtain ⟨mi, hmi2⟩ := Option.isSome_iff_exists.mp (hmts mt (by simp))
      simp only [List.foldlM_cons]
      rw [show (match getVal? ec_idx k, getVal? main_targets mt with
          | some ei2, some mi2 =>
            Except.ok (ts ++ [(ei2, mi2, list_to_int (haplotype_bits gettid
              (pySplitComma k) haplotypes mt))])
          | _, _ => Except.error "KeyError")
          = (Except.ok (ts ++ [(ei, mi, list_to_int (haplotype_bits gettid
              (pySplitComma k) haplotypes mt))])
            : Except String (List (Nat × Nat × Nat)))
        from by rw [hei2, hmi2]]
      exact (ih (ts ++ [(ei, mi, list_to_int (haplotype_bits gettid
          (pySplitComma k) haplotypes mt))]) hei
          (fun x hx => hmts x (by simp [hx]))).trans
        (by rw [List.map_cons, hei2, hmi2, List.append_assoc]; rfl)
  have htriples : ∀ (l : Dict Nat) (ts : List (Nat × Nat × Nat)),
      (∀ k ∈ keys l, ∀ idx ∈ pySplitComma k, (getVal? tmap idx).isSome = true) →
      (∀ k ∈ keys l, (getVal? ec_idx k).isSome = true) →
      (∀ k ∈ keys l, ∀ mt ∈ (pySplitComma k).filterMap (getVal? tmap),
          (getVal? main_targets mt).isSome = true) →
      (l.foldlM (fun ts2 p => do
          let mts ← ec_main_targets tmap p.1
          mts.foldlM (fun ts3 mt =>
            match getVal? ec_idx p.1, getVal? main_targets mt with
            | some ei, some mi =>
              Except.ok (ts3 ++ [(ei, mi, list_to_int (haplotype_bits gettid
                (pySplitComma p.1) haplotypes mt))])
            | _, _ => Except.error "KeyError") ts2) ts : Except String _)
        = .ok (ts ++ l.flatMap fun p =>
            (((pySplitComma p.1).filterMap (getVal? tmap)).foldl appendAbsent []).map
              fun mt => ((getVal? ec_idx p.1).getD 0, (getVal? main_targets mt).getD 0,
                list_to_int (haplotype_bits gettid (pySplitComma p.1) haplotypes mt))) := by
    intro l
    induction l with
    | nil =>
      intro ts _ _ _
      simp
      rfl
    | cons p rest ih =>
      intro ts ha hb hc
      simp only [List.foldlM_cons, ec_main_targets_ok tmap p.1 (ha p.1 (by simp))]
      rw [show ((do
          let mts ← (Except.ok (((pySplitComma p.1).filterMap (getVal? tmap)).foldl
            appendAbsent []) : Except String (List String))
          mts.foldlM (fun ts3 mt =>
            match getVal? ec_idx p.1, getVal? main_targets mt with
            | some ei, some mi =>
              Except.ok (ts3 ++ [(ei, mi, list_to_int (haplotype_bits gettid
                (pySplitComma p.1) haplotypes mt))])
            | _, _ => Except.error "KeyError") ts) : Except String _)
        = _ from htriple_inner p.1 _ ts (hb p.1 (by simp)) (fun mt hmt =>
            hc p.1 (by simp) mt (by
              have := mem_foldl_appendAbsent
                ((pySplitComma p.1).filterMap (getVal? tmap)) [] mt
              rw [this] at hmt
              rcases hmt with hx | hx
              · exact absurd hx (List.not_mem_nil mt)
              · exact hx))]
      exact (ih (ts ++ (((pySplitComma p.1).filterMap (getVal? tmap)).foldl
            appendAbsent []).map (fun mt => ((getVal? ec_idx p.1).getD 0,
              (getVal? main_targets mt).getD 0,
              list_to_int (haplotype_bits gettid (pySplitComma p.1) haplotypes mt))))
          (fun k hk => ha k (by rw [keys_cons]; exact List.mem_cons.mpr (Or.inr hk)))
          (fun k hk => hb k (by rw [keys_cons]; exact List.mem_cons.mpr (Or.inr hk)))
          (fun k hk => hc k (by rw [keys_cons]; exact List.mem_cons.mpr (Or.inr hk)))).trans
        (by rw [List.flatMap_cons, List.append_assoc])
  refine ⟨_, _, by
      rw [mapping_counter, hcounter ec 0 h1, Nat.zero_add], by
      rw [mapping_triples, htriples ec [] h1 h2 h3, List.nil_append], rfl, ?_, rfl, ?_⟩
  · rw [List.length_flatMap]
    refine congrArg List.sum (List.map_congr_left fun p _ => ?_)
    simp only [Function.comp_apply, List.length_map, foldl_appendAbsent_length]
  · intro p _
    refine ⟨foldl_appendAbsent_nodup _ [] List.nodup_nil, fun mt => ?_⟩
    rw [mem_foldl_appendAbsent]
    simp [List.mem_filterMap]

/-- Witness for C9: a one-EC table over two tids mapping to the same main
target, with haplotypes A and B. -/
theorem C9_mapping_section_witness :
    ∃ n ts, mapping_counter [("0,1", 2)] [("0", "T"), ("1", "T")] = .ok n ∧
      mapping_triples [("0,1", 2)] [("0,1", 0)] [("T", 0)] [("0", "T"), ("1", "T")]
        ["A", "B"] (fun s => if s = "T_A" then 0 else if s = "T_B" then 1 else -1)
        = .ok ts ∧
      n = (([("0,1", 2)] : Dict Nat).map fun p =>
        ((pySplitComma p.1).filterMap (getVal? [("0", "T"), ("1", "T")])).toFinset.card).sum ∧
      ts.length = n ∧
      ts = ([("0,1", 2)] : Dict Nat).flatMap (fun p =>
        (((pySplitComma p.1).filterMap (getVal? [("0", "T"), ("1", "T")])).foldl
          appendAbsent []).map
          fun mt => ((getVal? [("0,1", 0)] p.1).getD 0,
            (getVal? [("T", 0)] mt).getD 0,
            list_to_int (haplotype_bits
              (fun s => if s = "T_A" then 0 else if s = "T_B" then 1 else -1)
              (pySplitComma p.1) ["A", "B"] mt))) ∧
      ∀ p ∈ ([("0,1", 2)] : Dict Nat),
        (((pySplitComma p.1).filterMap (getVal? [("0", "T"), ("1", "T")])).foldl
          appendAbsent []).Nodup ∧
        ∀ mt, (mt ∈ ((pySplitComma p.1).filterMap
            (getVal? [("0", "T"), ("1", "T")])).foldl appendAbsent []
          ↔ ∃ idx ∈ pySplitComma p.1, getVal? [("0", "T"), ("1", "T")] idx = some mt) :=
  C9_mapping_section [("0,1", 2)] [("0,1", 0)] [("T", 0)] [("0", "T"), ("1", "T")]
    ["A", "B"] (fun s => if s = "T_A" then 0 else if s = "T_B" then 1 else -1)
    (by decide) (by decide) (by decide)

/-- One `process_piece` step on a further alignment of the pending read:
the EC tables are untouched, the tid string is recorded in
`target_ids` if absent, and the read stays pending. -/
theorem ppStep_same_read (references : List String) (r : String) (t : Int)
    (st : PPState) (hrid : st.read_id = none ∨ st.read_id = some r)
    (hget : (getrname references t).isSome = true) :
    ∃ st1, ppStep references st (mkAln r t) = .ok st1 ∧
      st1.ec = st.ec ∧ st1.ec_idx = st.ec_idx ∧ st1.read_id = some r ∧
      st1.target_ids = appendAbsent st.target_ids (toString t) ∧
      st1.tid = some (toString t) := by
  obtain ⟨rn, hrn⟩ := Option.isSome_iff_exists.mp hget
  by_cases hmem : toString t ∈ st.target_ids
  · refine ⟨{ st with
        unique_tids := addCount st.unique_tids (toString t) 1,
        target_idx_to_main_target := setVal st.target_idx_to_main_target
          (toString t) (pp_main_target rn),
        haplotypes := appendAbsent st.haplotypes (pp_haplotype rn),
        unique_reads := addCount st.unique_reads r 1,
        tid := some (toString t),
        read_id := some r,
        same_read_target_counter := st.same_read_target_counter + 1 },
      ?_, rfl, rfl, rfl, ?_, rfl⟩
    · rcases hrid with h | h <;> simp [ppStep, mkAln, hrn, h, hmem]
    · simp [appendAbsent, hmem]
  · refine ⟨{ st with
        unique_tids := addCount st.unique_tids (toString t) 1,
        target_idx_to_main_target := setVal st.target_idx_to_main_target
          (toString t) (pp_main_target rn),
        haplotypes := appendAbsent st.haplotypes (pp_haplotype rn),
        unique_reads := addCount st.unique_reads r 1,
        tid := some (toString t),
        read_id := some r,
        target_ids := st.target_ids ++ [toString t] },
      ?_, rfl, rfl, rfl, ?_, rfl⟩
    · rcases hrid with h | h <;> simp [ppStep, mkAln, hrn, h, hmem]
    · simp [appendAbsent, hmem]

/-- Folding `process_piece` over all alignments of one read: the EC
tables are untouched, `target_ids` accumulates the distinct tid strings
in first-appearance order, and `tid` remembers the last one. -/
theorem ppFold_group (references : List String) (r : String) (tids : List Int) :
    ∀ (st : PPState), (st.read_id = none ∨ st.read_id = some r) →
    (∀ t ∈ tids, (getrname references t).isSome = true) →
    ∃ st', ((tids.map (mkAln r)).foldlM (ppStep references) st
        : Except PPState PPState) = .ok st' ∧
      st'.ec = st.ec ∧ st'.ec_idx = st.ec_idx ∧
      st'.read_id = (if tids.isEmpty then st.read_id else some r) ∧
      st'.target_ids = (tids.map toString).foldl appendAbsent st.target_ids ∧
      st'.tid = tids.foldl (fun _ t => some (toString t)) st.tid := by
  induction tids with
  | nil =>
    intro st _ _
    exact ⟨st, rfl, rfl, rfl, by simp, rfl, rfl⟩
  | cons t rest ih =>
    intro st hrid hget
    obtain ⟨st1, hstep, hec1, hidx1, hrid1, htg1, htid1⟩ :=
      ppStep_same_read references r t st hrid (hget t (by simp))
    obtain ⟨st', hfold, hec, hidx, hrid', htg, htid⟩ :=
      ih st1 (Or.inr hrid1) (fun x hx => hget x (by simp [hx]))
    refine ⟨st', ?_, hec.trans hec1, hidx.trans hidx1, ?_, ?_, ?_⟩
    · simp only [List.map_cons, List.foldlM_cons, hstep]
      exact hfold
    · rw [hrid', hrid1]
      cases rest <;> simp
    · rw [htg, htg1, List.map_cons, List.foldl_cons]
    · rw [htid, htid1, List.foldl_cons]

/-- The per-chunk flush when the remembered tid is already in
`target_ids`: the pending read's key is counted and indexed. -/
theorem ppEndFlush_mem (st : PPState) (t : String) (htid : st.tid = some t)
    (hmem : t ∈ st.target_ids) :
    ppEndFlush st = .ok { st with
      same_read_target_counter := st.same_read_target_counter + 1,
      ec := addCount st.ec (String.intercalate "," (pySort st.target_ids)) 1,
      ec_idx := if hasKey st.ec (String.intercalate "," (pySort st.target_ids))
                then st.ec_idx
                else setVal st.ec_idx (String.intercalate "," (pySort st.target_ids))
                  st.ec_idx.length } := by
  simp [ppEndFlush, htid, hmem]

/-- Replacing the accumulator by each list element in turn ends at some
element of a nonempty list. -/
theorem foldl_last_some (l : List Int) (h : l ≠ []) :
    ∀ (init : Option String),
    ∃ t ∈ l, l.foldl (fun _ x => some (toString x)) init = some (toString t) := by
  induction l with
  | nil => exact absurd rfl h
  | cons x rest ih =>
    intro init
    by_cases hr : rest = []
    · subst hr
      exact ⟨x, by simp, by simp⟩
    · obtain ⟨t, ht, heq⟩ := ih hr (some (toString x))
      exact ⟨t, by simp [ht], by rw [List.foldl_cons]; exact heq⟩

/-- Processing one chunk holding exactly the alignments of a single
read: the read's canonical key is counted once and indexed freshly
(when unseen), starting from an empty `target_ids`. -/
theorem ppChunk_one_group (references : List String) (r : String)
    (tids : List Int) (st : PPState) (hne : tids ≠ [])
    (hta : st.target_ids = [])
    (hget : ∀ t ∈ tids, (getrname references t).isSome = true) :
    ∃ st', ppChunk references st (tids.map (mkAln r)) = .ok st' ∧
      st'.ec = addCount st.ec (canonKey tids) 1 ∧
      st'.ec_idx = (if hasKey st.ec (canonKey tids) then st.ec_idx
        else setVal st.ec_idx (canonKey tids) st.ec_idx.length) ∧
      st'.target_ids = (tids.map toString).foldl appendAbsent [] := by
  obtain ⟨st1, hfold, hec, hidx, hrid, htg, htid⟩ :=
    ppFold_group references r tids { st with read_id := none } (Or.inl rfl) hget
  obtain ⟨t, ht, heq⟩ := foldl_last_some tids hne ({ st with read_id := none }).tid
  rw [heq] at htid
  have hta' : ({ st with read_id := none } : PPState).target_ids = [] := hta
  have htg' : st1.target_ids = (tids.map toString).foldl appendAbsent [] := by
    rw [htg, hta']
  have hmem : toString t ∈ st1.target_ids := by
    rw [htg']
    exact (mem_foldl_appendAbsent _ _ _).mpr (Or.inr (List.mem_map_of_mem _ ht))
  have hkey : String.intercalate "," (pySort st1.target_ids) = canonKey tids := by
    rw [htg', canonKey]
  have hchunk : ppChunk references st (tids.map (mkAln r)) = .ok { st1 with
      same_read_target_counter := st1.same_read_target_counter + 1,
      ec := addCount st1.ec (String.intercalate "," (pySort st1.target_ids)) 1,
      ec_idx := if hasKey st1.ec (String.intercalate "," (pySort st1.target_ids))
                then st1.ec_idx
                else setVal st1.ec_idx (String.intercalate "," (pySort st1.target_ids))
                  st1.ec_idx.length } := by
    show (do
      let s ← (tids.map (mkAln r)).foldlM (ppStep references)
        { st with read_id := none }
      ppEndFlush s) = _
    rw [hfold]
    exact ppEndFlush_mem st1 (toString t) htid hmem
  refine ⟨_, hchunk, ?_, ?_, ?_⟩
  · show addCount st1.ec (String.intercalate "," (pySort st1.target_ids)) 1 = _
    rw [hkey, hec]
  · show (if hasKey st1.ec (String.intercalate "," (pySort st1.target_ids))
        then st1.ec_idx
        else setVal st1.ec_idx (String.intercalate "," (pySort st1.target_ids))
          st1.ec_idx.length) = _
    rw [hkey, hec, hidx]
  · exact htg'

/-- Canonical keys are invariant under permuting the tids. -/
theorem canonKey_perm (l1 l2 : List Int) (h : l1.Perm l2) :
    canonKey l1 = canonKey l2 := by
  rw [canonKey, canonKey]
  refine congrArg _ (pySort_eq_of_toFinset _ _ ?_ ?_ ?_)
  · exact foldl_appendAbsent_nodup _ _ List.nodup_nil
  · exact foldl_appendAbsent_nodup _ _ List.nodup_nil
  · rw [foldl_appendAbsent_toFinset, foldl_appendAbsent_toFinset]
    exact congrArg _ (List.toFinset_eq_of_perm _ _ (List.Perm.map _ h))

/-- One `process_piece` step on the first alignment of a new read name:
the pending read's key is counted and indexed, and the state restarts
with the new read. -/
theorem ppStep_flush (references : List String) (st : PPState)
    (r1 r2 : String) (t : Int) (rn : String)
    (hrid : st.read_id = some r1) (hne : r1 ≠ r2)
    (hrn : getrname references t = some rn) :
    ∃ st1, ppStep references st (mkAln r2 t) = .ok st1 ∧
      st1.ec = addCount st.ec (String.intercalate "," (pySort st.target_ids)) 1 ∧
      st1.ec_idx = (if hasKey st.ec (String.intercalate "," (pySort st.target_ids))
        then st.ec_idx
        else setVal st.ec_idx (String.intercalate "," (pySort st.target_ids))
          st.ec_idx.length) ∧
      st1.read_id = some r2 ∧
      st1.target_ids = [toString t] ∧
      st1.tid = some (toString t) := by
  refine ⟨{ st with
      unique_tids := addCount st.unique_tids (toString t) 1,
      target_idx_to_main_target := setVal st.target_idx_to_main_target
        (toString t) (pp_main_target rn),
      haplotypes := appendAbsent st.haplotypes (pp_haplotype rn),
      unique_reads := addCount st.unique_reads r1 1,
      tid := some (toString t),
      ec := addCount st.ec (String.intercalate "," (pySort st.target_ids)) 1,
      ec_idx := if hasKey st.ec (String.intercalate "," (pySort st.target_ids))
                then st.ec_idx
                else setVal st.ec_idx (String.intercalate "," (pySort st.target_ids))
                  st.ec_idx.length,
      read_id := some r2,
      target_ids := [toString t],
      read_id_switch_counter := st.read_id_switch_counter + 1 },
    ?_, rfl, rfl, rfl, rfl, rfl⟩
  simp [ppStep, mkAln, hrid, hrn, hne]

/-- Folding an `Except`-valued step over an appended list splits into
the two folds. -/
theorem foldlM_append_except {σ ε α : Type} (f : σ → α → Except ε σ)
    (l1 l2 : List α) : ∀ s,
    ((l1 ++ l2).foldlM f s : Except ε σ) = l1.foldlM f s >>= l2.foldlM f := by
  induction l1 with
  | nil => intro s; rfl
  | cons a l1 ih =>
    intro s
    rw [List.cons_append]
    simp only [List.foldlM_cons]
    cases hfa : f s a with
    | error e => rfl
    | ok s' => exact ih s'

/-- Processing one chunk holding the alignments of two reads with
different names and different canonical keys, from fresh tables: the
first read is flushed at the name change, the second at the end of the
chunk, each with count 1 and the next dense index. -/
theorem ppChunk_two_groups (references : List String) (r1 r2 : String)
    (ts1 ts2 : List Int) (st : PPState) (hr : r1 ≠ r2)
    (h1 : ts1 ≠ []) (h2 : ts2 ≠ [])
    (hk : canonKey ts1 ≠ canonKey ts2)
    (hec : st.ec = []) (hidx : st.ec_idx = []) (hta : st.target_ids = [])
    (hget : ∀ t ∈ ts1 ++ ts2, (getrname references t).isSome = true) :
    ∃ st', ppChunk references st (ts1.map (mkAln r1) ++ ts2.map (mkAln r2))
        = .ok st' ∧
      st'.ec = [(canonKey ts1, 1), (canonKey ts2, 1)] ∧
      st'.ec_idx = [(canonKey ts1, 0), (canonKey ts2, 1)] := by
  obtain ⟨t2, ts2', rfl⟩ := List.exists_cons_of_ne_nil h2
  obtain ⟨stA, hfoldA, hecA, hidxA, hridA, htgA, htidA⟩ :=
    ppFold_group references r1 ts1 { st with read_id := none } (Or.inl rfl)
      (fun x hx => hget x (by simp [hx]))
  have hieA : ts1.isEmpty = false := by
    cases ts1 with
    | nil => exact absurd rfl h1
    | cons a l => rfl
  have hecA' : stA.ec = [] := by rw [hecA]; exact hec
  have hidxA' : stA.ec_idx = [] := by rw [hidxA]; exact hidx
  have hridA' : stA.read_id = some r1 := by rw [hridA, hieA]; rfl
  have htgA' : stA.target_ids = (ts1.map toString).foldl appendAbsent [] := by
    rw [htgA, show ({ st with read_id := none } : PPState).target_ids = [] from hta]
  have hkeyA : String.intercalate "," (pySort stA.target_ids) = canonKey ts1 := by
    rw [htgA', canonKey]
  obtain ⟨rn2, hrn2⟩ := Option.isSome_iff_exists.mp (hget t2 (by simp))
  obtain ⟨stB, hstepB, hecB, hidxB, hridB, htgB, htidB⟩ :=
    ppStep_flush references stA r1 r2 t2 rn2 hridA' hr hrn2
  have hecB' : stB.ec = [(canonKey ts1, 1)] := by
    rw [hecB, hkeyA, hecA']
    rfl
  have hidxB' : stB.ec_idx = [(canonKey ts1, 0)] := by
    rw [hidxB, hkeyA, hecA', hidxA']
    rfl
  obtain ⟨stC, hfoldC, hecC, hidxC, hridC, htgC, htidC⟩ :=
    ppFold_group references r2 ts2' stB (Or.inr hridB)
      (fun x hx => hget x (by simp [hx]))
  have hecC' : stC.ec = [(canonKey ts1, 1)] := by rw [hecC]; exact hecB'
  have hidxC' : stC.ec_idx = [(canonKey ts1, 0)] := by rw [hidxC]; exact hidxB'
  have htgC' : stC.target_ids = ((t2 :: ts2').map toString).foldl appendAbsent [] := by
    rw [htgC, htgB, List.map_cons, List.foldl_cons]
    rfl
  obtain ⟨tl, htl, heql⟩ := foldl_last_some (t2 :: ts2') (by simp) stB.tid
  have htidC' : stC.tid = some (toString tl) := by
    simp only [List.foldl_cons] at heql
    rw [htidC, htidB]
    exact heql
  have hmemC : toString tl ∈ stC.target_ids := by
    rw [htgC']
    exact (mem_foldl_appendAbsent _ _ _).mpr (Or.inr (List.mem_map_of_mem _ htl))
  have hkeyC : String.intercalate "," (pySort stC.target_ids)
      = canonKey (t2 :: ts2') := by
    rw [htgC', canonKey]
  have hflushC := ppEndFlush_mem stC (toString tl) htidC' hmemC
  have hchunk : ppChunk references st
      (ts1.map (mkAln r1) ++ (t2 :: ts2').map (mkAln r2)) = ppEndFlush stC := by
    show (do
      let s ← (ts1.map (mkAln r1) ++ (t2 :: ts2').map (mkAln r2)).foldlM
        (ppStep references) { st with read_id := none }
      ppEndFlush s) = _
    rw [foldlM_append_except, hfoldA]
    show (do
      let s ← ((t2 :: ts2').map (mkAln r2)).foldlM (ppStep references) stA
      ppEndFlush s) = _
    rw [List.map_cons, List.foldlM_cons, hstepB]
    show (do
      let s ← (ts2'.map (mkAln r2)).foldlM (ppStep references) stB
      ppEndFlush s) = _
    rw [hfoldC]
    rfl
  refine ⟨_, hchunk.trans hflushC, ?_, ?_⟩
  · show addCount stC.ec (String.intercalate "," (pySort stC.target_ids)) 1 = _
    rw [hkeyC, hecC']
    simp [addCount, hk]
  · show (if hasKey stC.ec (String.intercalate "," (pySort stC.target_ids))
        then stC.ec_idx
        else setVal stC.ec_idx (String.intercalate "," (pySort stC.target_ids))
          stC.ec_idx.length) = _
    rw [hkeyC, hecC', hidxC']
    simp [hasKey, getVal?, setVal, hk]

/-- `process_piece` on a single chunk whose processing succeeds returns
that chunk's final tables. -/
theorem process_piece_single_chunk (references : List String)
    (c : List Alignment) (s : PPState)
    (h : ppChunk references ⟨[], [], [], [], [], [], none, [], none, 0, 0⟩ c
      = .ok s) :
    (process_piece references [c]).ec = s.ec ∧
    (process_piece references [c]).ec_idx = s.ec_idx := by
  have hfold : ([c].foldlM (ppChunk references)
      (⟨[], [], [], [], [], [], none, [], none, 0, 0⟩ : PPState)
      : Except PPState PPState) = .ok s := by
    rw [List.foldlM_cons, h]
    rfl
  constructor <;> simp [process_piece, hfold]

/-- One `process_convert_bam` step on a further alignment of the
pending read: the EC table is untouched and the reference id string is
recorded if absent. -/
theorem msStep_same_read (n : String) (t : Int) (st : MsState) (cr : String)
    (hq : st.query_name = none ∨ st.query_name = some (truncAtSpace n))
    (hcr : (pySplitBars (truncAtSpace n))[2]? = some cr) :
    ∃ st1, msStep false st (mkMs n t) = .ok st1 ∧
      st1.ec = st.ec ∧ st1.query_name = some (truncAtSpace n) ∧
      st1.reference_ids = appendAbsent st.reference_ids (toString t) := by
  by_cases hmem : toString t ∈ st.reference_ids
  · refine ⟨{ st with
        all_alignments := st.all_alignments + 1,
        valid_alignments := st.valid_alignments + 1,
        unique_reads := addCount st.unique_reads (truncAtSpace n) 1,
        query_name := some (truncAtSpace n),
        same_read_target_counter := st.same_read_target_counter + 1 },
      ?_, rfl, rfl, ?_⟩
    · rcases hq with h | h <;> simp [msStep, mkMs, h, hcr, hmem]
    · simp [appendAbsent, hmem]
  · refine ⟨{ st with
        all_alignments := st.all_alignments + 1,
        valid_alignments := st.valid_alignments + 1,
        unique_reads := addCount st.unique_reads (truncAtSpace n) 1,
        query_name := some (truncAtSpace n),
        reference_ids := st.reference_ids ++ [toString t] },
      ?_, rfl, rfl, ?_⟩
    · rcases hq with h | h <;> simp [msStep, mkMs, h, hcr, hmem]
    · simp [appendAbsent, hmem]

/-- Folding `process_convert_bam` over all alignments of one read: the
EC table is untouched and `reference_ids` accumulates the distinct
reference id strings in first-appearance order. -/
theorem msFold_group (n : String) (tids : List Int) (cr : String)
    (hcr : (pySplitBars (truncAtSpace n))[2]? = some cr) :
    ∀ (st : MsState),
    (st.query_name = none ∨ st.query_name = some (truncAtSpace n)) →
    ∃ st', ((tids.map (mkMs n)).foldlM (msStep false) st
        : Except String MsState) = .ok st' ∧
      st'.ec = st.ec ∧
      st'.query_name = (if tids.isEmpty then st.query_name
        else some (truncAtSpace n)) ∧
      st'.reference_ids = (tids.map toString).foldl appendAbsent st.reference_ids := by
  induction tids with
  | nil =>
    intro st _
    exact ⟨st, rfl, rfl, by simp, rfl⟩
  | cons t rest ih =>
    intro st hq
    obtain ⟨st1, hstep, hec1, hq1, hrf1⟩ := msStep_same_read n t st cr hq hcr
    obtain ⟨st', hfold, hec, hq', hrf⟩ := ih st1 (Or.inr hq1)
    refine ⟨st', ?_, hec.trans hec1, ?_, ?_⟩
    · simp only [List.map_cons, List.foldlM_cons, hstep]
      exact hfold
    · rw [hq', hq1]
      cases rest <;> simp
    · rw [hrf, hrf1, List.map_cons, List.foldl_cons]

/-- One `process_convert_bam` step on the first alignment of a new read
name: the pending read's key is counted for its cell barcode, and the
state restarts with the new read (whose name is stored untruncated). -/
theorem msStep_flush (st : MsState) (n2 : String) (t2 : Int) (q cr : String)
    (hq : st.query_name = some q)
    (hcr : (pySplitBars q)[2]? = some cr)
    (hne : q ≠ truncAtSpace n2) :
    ∃ st1, msStep false st (mkMs n2 t2) = .ok st1 ∧
      st1.ec = ecAddMs st.ec (String.intercalate "," (pySort st.reference_ids)) cr 1 ∧
      st1.query_name = some n2 ∧
      st1.reference_ids = [toString t2] := by
  refine ⟨{ st with
      all_alignments := st.all_alignments + 1,
      valid_alignments := st.valid_alignments + 1,
      unique_reads := addCount st.unique_reads q 1,
      ec := ecAddMs st.ec (String.intercalate "," (pySort st.reference_ids)) cr 1,
      query_name := some n2,
      reference_ids := [toString t2],
      read_id_switch_counter := st.read_id_switch_counter + 1 },
    ?_, rfl, rfl, rfl⟩
  simp [msStep, mkMs, hq, hcr, hne]

/-- A multi-sample stream holding two reads with different (space-free)
names: the first read's class is flushed at the name change with its
cell barcode counted once; the second read is never flushed. -/
theorem ms_two_groups (n1 n2 cr1 cr2 : String) (ts1 ts2 : List Int)
    (h1 : ts1 ≠ []) (h2 : ts2 ≠ [])
    (htr1 : truncAtSpace n1 = n1) (htr2 : truncAtSpace n2 = n2)
    (hne : n1 ≠ n2)
    (hcr1 : (pySplitBars n1)[2]? = some cr1)
    (hcr2 : (pySplitBars n2)[2]? = some cr2) :
    ∃ res, process_convert_bam false (ts1.map (mkMs n1) ++ ts2.map (mkMs n2))
        = .ok res ∧
      res.ec = [(canonKey ts1, [(cr1, 1)])] := by
  obtain ⟨t2, ts2', rfl⟩ := List.exists_cons_of_ne_nil h2
  have hcr1' : (pySplitBars (truncAtSpace n1))[2]? = some cr1 := by
    rw [htr1]; exact hcr1
  have hcr2' : (pySplitBars (truncAtSpace n2))[2]? = some cr2 := by
    rw [htr2]; exact hcr2
  obtain ⟨stA, hfoldA, hecA, hqA, hrfA⟩ :=
    msFold_group n1 ts1 cr1 hcr1' (⟨[], [], [], none, [], 0, 0, 0, 0⟩ : MsState)
      (Or.inl rfl)
  have hieA : ts1.isEmpty = false := by
    cases ts1 with
    | nil => exact absurd rfl h1
    | cons a l => rfl
  have hqA' : stA.query_name = some n1 := by rw [hqA, hieA, htr1]; rfl
  have hecA' : stA.ec = [] := by rw [hecA]
  have hrfA' : stA.reference_ids = (ts1.map toString).foldl appendAbsent [] := by
    rw [hrfA]
  have hkeyA : String.intercalate "," (pySort stA.reference_ids)
      = canonKey ts1 := by
    rw [hrfA', canonKey]
  obtain ⟨stB, hstepB, hecB, hqB, hrfB⟩ :=
    msStep_flush stA n2 t2 n1 cr1 hqA' hcr1 (by rw [htr2]; exact hne)
  have hecB' : stB.ec = [(canonKey ts1, [(cr1, 1)])] := by
    rw [hecB, hkeyA, hecA']
    rfl
  obtain ⟨stC, hfoldC, hecC, hqC, hrfC⟩ :=
    msFold_group n2 ts2' cr2 hcr2' stB (Or.inr (by rw [hqB, htr2]))
  have hecC' : stC.ec = [(canonKey ts1, [(cr1, 1)])] := by rw [hecC]; exact hecB'
  have hfold : ((ts1.map (mkMs n1) ++ (t2 :: ts2').map (mkMs n2)).foldlM
      (msStep false) (⟨[], [], [], none, [], 0, 0, 0, 0⟩ : MsState)
      : Except String MsState) = .ok stC := by
    rw [foldlM_append_except, hfoldA]
    show ((t2 :: ts2').map (mkMs n2)).foldlM (msStep false) stA = .ok stC
    rw [List.map_cons, List.foldlM_cons, hstepB]
    exact hfoldC
  refine ⟨⟨stC.ec, stC.unique_reads, stC.tid_ranges, stC.valid_alignments,
      stC.all_alignments⟩, ?_, hecC'⟩
  simp only [process_convert_bam]
  rw [hfold]
  rfl

@[simp] theorem exPP_ok (st : PPState) : exPP (.ok st) = st := rfl

@[simp] theorem exPP_error (st : PPState) : exPP (.error st) = st := rfl

/-- A key sorted out of a nonempty duplicate-free list of decimal
strings is canonical. -/
theorem isCanonicalKey_sort (l : List String) (hne : l ≠ []) (hnd : l.Nodup)
    (hint : ∀ s ∈ l, ∃ z : Int, s = toString z) :
    isCanonicalKey (String.intercalate "," (pySort l)) := by
  refine ⟨pySort l, ?_, ?_, pySort_sorted l, ?_, rfl⟩
  · intro hh
    exact hne (List.length_eq_zero.mp (by rw [← (pySort_perm l).length_eq, hh]; rfl))
  · exact ((pySort_perm l).nodup_iff).mpr hnd
  · intro s hs
    exact hint s ((pySort_perm l).mem_iff.mp hs)

/-- Counting a key sorted from the current target list keeps all EC
keys canonical. -/
theorem canonical_keys_addCount (ec : Dict Nat) (tg : List String)
    (hne : tg ≠ []) (hnd : tg.Nodup)
    (hint : ∀ s ∈ tg, ∃ z : Int, s = toString z)
    (hkeys : ∀ k ∈ keys ec, isCanonicalKey k) (c : Nat) :
    ∀ k ∈ keys (addCount ec (String.intercalate "," (pySort tg)) c),
      isCanonicalKey k := by
  intro k hk
  rw [keys_addCount] at hk
  by_cases hh : hasKey ec (String.intercalate "," (pySort tg))
  · rw [if_pos hh] at hk
    exact hkeys k hk
  · rw [if_neg (by simpa using hh)] at hk
    rcases List.mem_append.mp hk with hk | hk
    · exact hkeys k hk
    · rw [List.mem_singleton] at hk
      subst hk
      exact isCanonicalKey_sort _ hne hnd hint

/-- Appending a fresh element keeps a list duplicate-free. -/
theorem nodup_append_singleton (l : List String) (x : String)
    (hnd : l.Nodup) (hx : ¬ x ∈ l) : (l ++ [x]).Nodup := by
  have : l ++ [x] = appendAbsent l x := by simp [appendAbsent, hx]
  rw [this]
  exact nodup_appendAbsent l x hnd

/-- One `process_piece` step preserves the loop invariant, also on the
error path. -/
theorem ppStep_inv (references : List String) (st : PPState) (a : Alignment)
    (h : ppInv st) : ppInv (exPP (ppStep references st a)) := by
  obtain ⟨h1, h2, h3, h4, h5⟩ := h
  by_cases hu : a.is_unmapped = true
  · simp only [ppStep, if_pos hu, exPP_ok]
    exact ⟨h1, h2, h3, h4, h5⟩
  cases hg : getrname references a.tid with
  | none =>
    have hstep : ppStep references st a = .error st := by
      simp [ppStep, hu, hg]
    rw [hstep, exPP_error]
    exact ⟨h1, h2, h3, h4, h5⟩
  | some rn =>
    by_cases hb : st.read_id.getD a.qname ≠ a.qname
    · obtain ⟨r0, hr0⟩ : ∃ r0, st.read_id = some r0 := by
        cases hrid : st.read_id with
        | none => rw [hrid] at hb; simp at hb
        | some r0 => exact ⟨r0, rfl⟩
      have htane : st.target_ids ≠ [] := h3 (by rw [hr0]; rfl)
      have hstep : ppStep references st a = .ok { st with
          unique_tids := addCount st.unique_tids (toString a.tid) 1,
          target_idx_to_main_target := setVal st.target_idx_to_main_target
            (toString a.tid) (pp_main_target rn),
          haplotypes := appendAbsent st.haplotypes (pp_haplotype rn),
          unique_reads := addCount st.unique_reads (st.read_id.getD a.qname) 1,
          tid := some (toString a.tid),
          ec := addCount st.ec (String.intercalate "," (pySort st.target_ids)) 1,
          ec_idx := if hasKey st.ec (String.intercalate "," (pySort st.target_ids))
                    then st.ec_idx
                    else setVal st.ec_idx
                      (String.intercalate "," (pySort st.target_ids))
                      st.ec_idx.length,
          read_id := some a.qname,
          target_ids := [toString a.tid],
          read_id_switch_counter := st.read_id_switch_counter + 1 } := by
        simp [ppStep, hu, hg, hb]
      rw [hstep, exPP_ok]
      refine ⟨?_, ?_, ?_, ?_, ?_⟩
      · intro s hs
        rw [List.mem_singleton] at hs
        subst hs
        exact ⟨a.tid, rfl⟩
      · exact List.nodup_singleton _
      · intro _
        exact List.cons_ne_nil _ _
      · intro t ht
        cases ht
        exact ⟨a.tid, rfl⟩
      · exact canonical_keys_addCount st.ec st.target_ids htane h2 h1 h5 1
    · by_cases hmem : toString a.tid ∈ st.target_ids
      · have hstep : ppStep references st a = .ok { st with
            unique_tids := addCount st.unique_tids (toString a.tid) 1,
            target_idx_to_main_target := setVal st.target_idx_to_main_target
              (toString a.tid) (pp_main_target rn),
            haplotypes := appendAbsent st.haplotypes (pp_haplotype rn),
            unique_reads := addCount st.unique_reads (st.read_id.getD a.qname) 1,
            tid := some (toString a.tid),
            read_id := some (st.read_id.getD a.qname),
            same_read_target_counter := st.same_read_target_counter + 1 } := by
          simp [ppStep, hu, hg, hb, hmem]
        rw [hstep, exPP_ok]
        refine ⟨h1, h2, ?_, ?_, h5⟩
        · intro _
          exact List.ne_nil_of_mem hmem
        · intro t ht
          cases ht
          exact ⟨a.tid, rfl⟩
      · have hstep : ppStep references st a = .ok { st with
            unique_tids := addCount st.unique_tids (toString a.tid) 1,
            target_idx_to_main_target := setVal st.target_idx_to_main_target
              (toString a.tid) (pp_main_target rn),
            haplotypes := appendAbsent st.haplotypes (pp_haplotype rn),
            unique_reads := addCount st.unique_reads (st.read_id.getD a.qname) 1,
            tid := some (toString a.tid),
            read_id := some (st.read_id.getD a.qname),
            target_ids := st.target_ids ++ [toString a.tid] } := by
          simp [ppStep, hu, hg, hb, hmem]
        rw [hstep, exPP_ok]
        refine ⟨?_, ?_, ?_, ?_, h5⟩
        · intro s hs
          rcases List.mem_append.mp hs with hs | hs
          · exact h1 s hs
          · rw [List.mem_singleton] at hs
            subst hs
            exact ⟨a.tid, rfl⟩
        · exact nodup_append_singleton _ _ h2 hmem
        · intro _
          simp
        · intro t ht
          cases ht
          exact ⟨a.tid, rfl⟩

/-- The per-chunk flush preserves the loop invariant, also on the
error path. -/
theorem ppEndFlush_inv (st : PPState) (h : ppInv st) :
    ppInv (exPP (ppEndFlush st)) := by
  obtain ⟨h1, h2, h3, h4, h5⟩ := h
  cases ht : st.tid with
  | none =>
    have hstep : ppEndFlush st = .error st := by simp [ppEndFlush, ht]
    rw [hstep, exPP_error]
    exact ⟨h1, h2, h3, h4, h5⟩
  | some t =>
    obtain ⟨z, hz⟩ := h4 t ht
    by_cases hmem : t ∈ st.target_ids
    · rw [ppEndFlush_mem st t ht hmem, exPP_ok]
      refine ⟨h1, h2, fun _ => List.ne_nil_of_mem hmem, ?_, ?_⟩
      · intro t' ht'
        exact h4 t' ht'
      · exact canonical_keys_addCount st.ec st.target_ids
          (List.ne_nil_of_mem hmem) h2 h1 h5 1
    · have hstep : ppEndFlush st = .ok { st with
          target_ids := st.target_ids ++ [t],
          ec := addCount st.ec
            (String.intercalate "," (pySort (st.target_ids ++ [t]))) 1,
          ec_idx := if hasKey st.ec
              (String.intercalate "," (pySort (st.target_ids ++ [t])))
            then st.ec_idx
            else setVal st.ec_idx
              (String.intercalate "," (pySort (st.target_ids ++ [t])))
              st.ec_idx.length } := by
        simp [ppEndFlush, ht, hmem]
      have hint' : ∀ s ∈ st.target_ids ++ [t], ∃ z : Int, s = toString z := by
        intro s hs
        rcases List.mem_append.mp hs with hs | hs
        · exact h1 s hs
        · rw [List.mem_singleton] at hs
          subst hs
          exact ⟨z, hz⟩
      rw [hstep, exPP_ok]
      refine ⟨hint', nodup_append_singleton _ _ h2 hmem, ?_, ?_, ?_⟩
      · intro _
        simp
      · intro t' ht'
        exact h4 t' ht'
      · exact canonical_keys_addCount st.ec (st.target_ids ++ [t])
          (by simp) (nodup_append_singleton _ _ h2 hmem) hint' h5 1

/-- Clearing the pending read name preserves the invariant. -/
theorem ppInv_clear_read_id (st : PPState) (h : ppInv st) :
    ppInv { st with read_id := none } :=
  ⟨h.1, h.2.1, fun hh => absurd hh (by simp), h.2.2.2.1, h.2.2.2.2⟩

/-- One chunk iteration preserves the loop invariant, also on the
error path. -/
theorem ppChunk_inv (references : List String) (st : PPState)
    (alns : List Alignment) (h : ppInv st) :
    ppInv (exPP (ppChunk references st alns)) := by
  have hfold : ∀ (l : List Alignment) (s : PPState), ppInv s →
      ppInv (exPP (l.foldlM (ppStep references) s)) := by
    intro l
    induction l with
    | nil => intro s hs; exact hs
    | cons a rest ih =>
      intro s hs
      have hone := ppStep_inv references s a hs
      cases hstep : ppStep references s a with
      | error s1 =>
        rw [hstep, exPP_error] at hone
        rw [List.foldlM_cons, hstep]
        exact hone
      | ok s1 =>
        rw [hstep, exPP_ok] at hone
        rw [List.foldlM_cons, hstep]
        exact ih s1 hone
  have h0 := hfold alns { st with read_id := none } (ppInv_clear_read_id st h)
  cases hf : (alns.foldlM (ppStep references) { st with read_id := none }
      : Except PPState PPState) with
  | error s =>
    have : ppChunk references st alns = .error s := by
      simp only [ppChunk]
      rw [hf]
      rfl
    rw [this, exPP_error]
    rw [hf, exPP_error] at h0
    exact h0
  | ok s =>
    have : ppChunk references st alns = ppEndFlush s := by
      simp only [ppChunk]
      rw [hf]
      rfl
    rw [this]
    rw [hf, exPP_ok] at h0
    exact ppEndFlush_inv s h0

/-- Every EC key `process_piece` ever returns is canonical, whatever the
alignment streams hold. -/
theorem process_piece_keys_canonical (references : List String)
    (chunks : List (List Alignment)) :
    ∀ k ∈ keys (process_piece references chunks).ec, isCanonicalKey k := by
  have hinv : ∀ (l : List (List Alignment)) (s : PPState), ppInv s →
      ppInv (exPP (l.foldlM (ppChunk references) s)) := by
    intro l
    induction l with
    | nil => intro s hs; exact hs
    | cons c rest ih =>
      intro s hs
      have hone := ppChunk_inv references s c hs
      cases hstep : ppChunk references s c with
      | error s1 =>
        rw [hstep, exPP_error] at hone
        rw [List.foldlM_cons, hstep]
        exact hone
      | ok s1 =>
        rw [hstep, exPP_ok] at hone
        rw [List.foldlM_cons, hstep]
        exact ih s1 hone
  have h0 : ppInv (⟨[], [], [], [], [], [], none, [], none, 0, 0⟩ : PPState) := by
    refine ⟨?_, List.nodup_nil, ?_, ?_, ?_⟩
    · intro s hs
      exact absurd hs (List.not_mem_nil s)
    · intro hh
      exact absurd hh (by simp)
    · intro t ht
      exact absurd ht (by simp)
    · intro k hk
      exact absurd hk (List.not_mem_nil k)
  have hfin := hinv chunks _ h0
  intro k hk
  cases hf : (chunks.foldlM (ppChunk references)
      (⟨[], [], [], [], [], [], none, [], none, 0, 0⟩ : PPState)
      : Except PPState PPState) with
  | error s =>
    rw [hf, exPP_error] at hfin
    have : (process_piece references chunks).ec = s.ec := by
      simp [process_piece, hf]
    rw [this] at hk
    exact hfin.2.2.2.2 k hk
  | ok s =>
    rw [hf, exPP_ok] at hfin
    have : (process_piece references chunks).ec = s.ec := by
      simp [process_piece, hf]
    rw [this] at hk
    exact hfin.2.2.2.2 k hk

/-- Counting a key sorted from the current reference-id list keeps all
multi-sample EC keys canonical. -/
theorem canonical_keys_ecAddMs (ec : EcCrTable) (rg : List String)
    (hne : rg ≠ []) (hnd : rg.Nodup)
    (hint : ∀ s ∈ rg, ∃ z : Int, s = toString z)
    (hkeys : ∀ k ∈ keys ec, isCanonicalKey k) (cr : String) (c : Nat) :
    ∀ k ∈ keys (ecAddMs ec (String.intercalate "," (pySort rg)) cr c),
      isCanonicalKey k := by
  intro k hk
  rw [keys_ecAddMs] at hk
  by_cases hh : hasKey ec (String.intercalate "," (pySort rg))
  · rw [if_pos hh] at hk
    exact hkeys k hk
  · rw [if_neg (by simpa using hh)] at hk
    rcases List.mem_append.mp hk with hk | hk
    · exact hkeys k hk
    · rw [List.mem_singleton] at hk
      subst hk
      exact isCanonicalKey_sort _ hne hnd hint

/-- One successful `process_convert_bam` step preserves the loop
invariant. -/
theorem msStep_inv (track : Bool) (st : MsState) (a : MsAlignment)
    (st' : MsState) (h : msInv st) (hstep : msStep track st a = .ok st') :
    msInv st' := by
  obtain ⟨h1, h2, h3, h4⟩ := h
  by_cases hu : a.is_unmapped = true
  · simp [msStep, hu] at hstep
    subst hstep
    exact ⟨h1, h2, h3, h4⟩
  by_cases hp : (a.is_paired && (a.is_read2 || !a.is_proper_pair ||
      a.reference_id != a.next_reference_id ||
      decide (a.next_reference_start < 0))) = true
  · simp [msStep, hu, hp] at hstep
    subst hstep
    exact ⟨h1, h2, h3, h4⟩
  cases hbar : (pySplitBars (st.query_name.getD (truncAtSpace a.query_name)))[2]?
    with
  | none =>
    cases track <;> simp [msStep, hu, hp, hbar] at hstep
  | some cr =>
    by_cases hb : st.query_name.getD (truncAtSpace a.query_name)
        ≠ truncAtSpace a.query_name
    · obtain ⟨q0, hq0⟩ : ∃ q0, st.query_name = some q0 := by
        cases hqn : st.query_name with
        | none => rw [hqn] at hb; simp at hb
        | some q0 => exact ⟨q0, rfl⟩
      have hrefne : st.reference_ids ≠ [] := h3 (by rw [hq0]; rfl)
      cases track <;>
        · simp [msStep, hu, hp, hbar, hb] at hstep
          subst hstep
          refine ⟨?_, List.nodup_singleton _, fun _ => List.cons_ne_nil _ _, ?_⟩
          · intro s hs
            rw [List.mem_singleton] at hs
            subst hs
            exact ⟨a.reference_id, rfl⟩
          · exact canonical_keys_ecAddMs st.ec st.reference_ids hrefne h2 h1 h4 cr 1
    · by_cases hmem : toString a.reference_id ∈ st.reference_ids
      · cases track <;>
          · simp [msStep, hu, hp, hbar, hb, hmem] at hstep
            subst hstep
            exact ⟨h1, h2, fun _ => List.ne_nil_of_mem hmem, h4⟩
      · cases track <;>
          · simp [msStep, hu, hp, hbar, hb, hmem] at hstep
            subst hstep
            refine ⟨?_, nodup_append_singleton _ _ h2 hmem, fun _ => by simp, h4⟩
            intro s hs
            rcases List.mem_append.mp hs with hs | hs
            · exact h1 s hs
            · rw [List.mem_singleton] at hs
              subst hs
              exact ⟨a.reference_id, rfl⟩

/-- Every EC key a successful `process_convert_bam` run returns is
canonical, whatever the alignment stream holds. -/
theorem process_convert_bam_keys_canonical (track : Bool)
    (alns : List MsAlignment) (res : MsResult)
    (h : process_convert_bam track alns = .ok res) :
    ∀ k ∈ keys res.ec, isCanonicalKey k := by
  have hfold : ∀ (l : List MsAlignment) (s s' : MsState), msInv s →
      (l.foldlM (msStep track) s : Except String MsState) = .ok s' →
      msInv s' := by
    intro l
    induction l with
    | nil =>
      intro s s' hs heq
      cases heq
      exact hs
    | cons a rest ih =>
      intro s s' hs heq
      cases hstep : msStep track s a with
      | error e =>
        rw [List.foldlM_cons, hstep] at heq
        cases heq
      | ok s1 =>
        rw [List.foldlM_cons, hstep] at heq
        exact ih s1 s' (msStep_inv track s a s1 hs hstep) heq
  have h0 : msInv (⟨[], [], [], none, [], 0, 0, 0, 0⟩ : MsState) := by
    refine ⟨?_, List.nodup_nil, ?_, ?_⟩
    · intro s hs
      exact absurd hs (List.not_mem_nil s)
    · intro hh
      exact absurd hh (by simp)
    · intro k hk
      exact absurd hk (List.not_mem_nil k)
  cases hf : (alns.foldlM (msStep track)
      (⟨[], [], [], none, [], 0, 0, 0, 0⟩ : MsState)
      : Except String MsState) with
  | error e =>
    rw [show process_convert_bam track alns
        = (alns.foldlM (msStep track)
          (⟨[], [], [], none, [], 0, 0, 0, 0⟩ : MsState)).map
          (fun st => (⟨st.ec, st.unique_reads, st.tid_ranges,
            st.valid_alignments, st.all_alignments⟩ : MsResult)) from rfl,
      hf] at h
    cases h
  | ok s =>
    rw [show process_convert_bam track alns
        = (alns.foldlM (msStep track)
          (⟨[], [], [], none, [], 0, 0, 0, 0⟩ : MsState)).map
          (fun st => (⟨st.ec, st.unique_reads, st.tid_ranges,
            st.valid_alignments, st.all_alignments⟩ : MsResult)) from rfl,
      hf] at h
    cases h
    exact (hfold alns _ s h0 hf).2.2.2

/-- C1 counterexample to the unamended claim: a read whose alignments
map to tids 5, 2, 10, 2 contributes no EC key at all when it is the
last read of a multi-sample stream (no end-of-stream flush), and in
single-sample mode a later chunk inherits the previous chunk's
`target_ids`, so the same read yields the key "10,2,5,7" instead of
"10,2,5". -/
theorem C1_counterexample :
    (process_convert_bam false ([5, 2, 10, 2].map (mkMs "R1|||x|||ACGT"))
      = .ok ⟨[], [("R1|||x|||ACGT", 4)], [], 4, 4⟩) ∧
    (process_piece refsW [[mkAln "R0" 7], [5, 2, 10, 2].map (mkAln "R2")]).ec
      = [("7", 1), ("10,2,5,7", 1)] ∧
    getNat (process_piece refsW [[mkAln "R0" 7],
      [5, 2, 10, 2].map (mkAln "R2")]).ec "10,2,5" = 0 := by
  refine ⟨by decide, by decide, by decide⟩

/-- C1 (amended): a read aligned to tids 5, 2, 10, 2 in any order gets
the EC key "10,2,5" with count 1 and index 0 when its group is actually
flushed — in single-sample mode when it is the chunk's only read, in
multi-sample mode when a read with a different name follows it; and
every EC key either aggregator ever emits is canonical (sorted,
duplicate-free, comma-joined decimal tid strings). -/
theorem C1_canonical_ec_keys :
    (∀ (references : List String) (r : String) (tids : List Int),
      tids.Perm [5, 2, 10, 2] →
      (∀ t ∈ tids, (getrname references t).isSome = true) →
      (process_piece references [tids.map (mkAln r)]).ec = [("10,2,5", 1)] ∧
      (process_piece references [tids.map (mkAln r)]).ec_idx = [("10,2,5", 0)]) ∧
    (∀ tids : List Int, tids.Perm [5, 2, 10, 2] →
      ∃ res, process_convert_bam false
          (tids.map (mkMs "R1|||x|||ACGT") ++ [mkMs "R2|||y|||TTTT" 0]) = .ok res ∧
        res.ec = [("10,2,5", [("ACGT", 1)])]) ∧
    (∀ (references : List String) (chunks : List (List Alignment)),
      ∀ k ∈ keys (process_piece references chunks).ec, isCanonicalKey k) ∧
    (∀ (track : Bool) (alns : List MsAlignment) (res : MsResult),
      process_convert_bam track alns = .ok res →
      ∀ k ∈ keys res.ec, isCanonicalKey k) := by
  have hck : canonKey [5, 2, 10, 2] = "10,2,5" := by decide
  refine ⟨?_, ?_, ?_, ?_⟩
  · intro references r tids hperm hget
    have hne : tids ≠ [] := by
      intro hnil
      have hl := hperm.length_eq
      rw [hnil] at hl
      simp at hl
    obtain ⟨s, hchunk, hec, hidx, _⟩ := ppChunk_one_group references r tids
      ⟨[], [], [], [], [], [], none, [], none, 0, 0⟩ hne rfl hget
    obtain ⟨he, hi⟩ := process_piece_single_chunk references _ s hchunk
    have hk : canonKey tids = "10,2,5" := (canonKey_perm _ _ hperm).trans hck
    constructor
    · rw [he, hec, hk]
      rfl
    · rw [hi, hidx, hk]
      rfl
  · intro tids hperm
    have hne : tids ≠ [] := by
      intro hnil
      have hl := hperm.length_eq
      rw [hnil] at hl
      simp at hl
    obtain ⟨res, hrun, hres⟩ := ms_two_groups "R1|||x|||ACGT" "R2|||y|||TTTT"
      "ACGT" "TTTT" tids [0] hne (by simp) (by decide) (by decide) (by decide)
      (by decide) (by decide)
    refine ⟨res, hrun, ?_⟩
    rw [hres, canonKey_perm _ _ hperm, hck]
  · exact process_piece_keys_canonical
  · exact process_convert_bam_keys_canonical

/-- Witness for C1 at a concrete permutation and reference list. -/
theorem C1_canonical_ec_keys_witness :
    (process_piece refsW [[5, 2, 10, 2].map (mkAln "R")]).ec
      = [("10,2,5", 1)] ∧
    ∃ res, process_convert_bam false
        ([5, 2, 10, 2].map (mkMs "R1|||x|||ACGT") ++ [mkMs "R2|||y|||TTTT" 0]) = .ok res ∧
      res.ec = [("10,2,5", [("ACGT", 1)])] :=
  ⟨(C1_canonical_ec_keys.1 refsW "R" [5, 2, 10, 2] (by decide) (by decide)).1,
   C1_canonical_ec_keys.2.1 [5, 2, 10, 2] (by decide)⟩

/-- C3 counterexample to the unamended claim: the multi-sample
aggregator never flushes at the end of the stream, so the last read of
the stream contributes no count at all. -/
theorem C3_counterexample :
    process_convert_bam false [mkMs "R1|||x|||ACGT" 4, mkMs "R1|||x|||ACGT" 1]
      = .ok ⟨[], [("R1|||x|||ACGT", 2)], [], 2, 2⟩ := by
  decide

/-- C3 (amended): in single-sample `process_piece` the pending read is
flushed both at a read-name change and at the end of each chunk, so
both reads of a two-read chunk are counted once and indexed densely; in
multi-sample `process_convert_bam` only the read-name change flushes:
the first read of a two-read stream is counted once under its cell
barcode, and the trailing read is dropped. -/
theorem C3_flush_behavior :
    (∀ (references : List String) (r1 r2 : String) (ts1 ts2 : List Int),
      r1 ≠ r2 → ts1 ≠ [] → ts2 ≠ [] → canonKey ts1 ≠ canonKey ts2 →
      (∀ t ∈ ts1 ++ ts2, (getrname references t).isSome = true) →
      (process_piece references [ts1.map (mkAln r1) ++ ts2.map (mkAln r2)]).ec
          = [(canonKey ts1, 1), (canonKey ts2, 1)] ∧
      (process_piece references [ts1.map (mkAln r1) ++ ts2.map (mkAln r2)]).ec_idx
          = [(canonKey ts1, 0), (canonKey ts2, 1)]) ∧
    (∀ (n1 n2 cr1 cr2 : String) (ts1 ts2 : List Int),
      ts1 ≠ [] → ts2 ≠ [] →
      truncAtSpace n1 = n1 → truncAtSpace n2 = n2 → n1 ≠ n2 →
      (pySplitBars n1)[2]? = some cr1 → (pySplitBars n2)[2]? = some cr2 →
      ∃ res, process_convert_bam false (ts1.map (mkMs n1) ++ ts2.map (mkMs n2))
          = .ok res ∧ res.ec = [(canonKey ts1, [(cr1, 1)])]) := by
  constructor
  · intro references r1 r2 ts1 ts2 hr h1 h2 hk hget
    obtain ⟨s, hchunk, hec, hidx⟩ := ppChunk_two_groups references r1 r2 ts1 ts2
      ⟨[], [], [], [], [], [], none, [], none, 0, 0⟩ hr h1 h2 hk rfl rfl rfl hget
    obtain ⟨he, hi⟩ := process_piece_single_chunk references _ s hchunk
    exact ⟨he.trans hec, hi.trans hidx⟩
  · intro n1 n2 cr1 cr2 ts1 ts2 h1 h2 htr1 htr2 hne hcr1 hcr2
    exact ms_two_groups n1 n2 cr1 cr2 ts1 ts2 h1 h2 htr1 htr2 hne hcr1 hcr2

/-- Witness for C3 at concrete two-read streams. -/
theorem C3_flush_behavior_witness :
    ((process_piece refsW [[0].map (mkAln "A") ++ [1].map (mkAln "B")]).ec
        = [("0", 1), ("1", 1)] ∧
     (process_piece refsW [[0].map (mkAln "A") ++ [1].map (mkAln "B")]).ec_idx
        = [("0", 0), ("1", 1)]) ∧
    (∃ res, process_convert_bam false
        ([2].map (mkMs "R1|||x|||ACGT") ++ [3].map (mkMs "R2|||y|||TTTT")) = .ok res ∧
      res.ec = [("2", [("ACGT", 1)])]) :=
  ⟨C3_flush_behavior.1 refsW "A" "B" [0] [1] (by decide) (by decide) (by decide)
      (by decide) (by decide),
   C3_flush_behavior.2 "R1|||x|||ACGT" "R2|||y|||TTTT" "ACGT" "TTTT" [2] [3] (by decide)
      (by decide) (by decide) (by decide) (by decide) (by decide) (by decide)⟩

end Alntools
